import Mathlib

/-!
Verification of the waybar VPN patch tool (`scripts/fix-waybar-vpn.py`).

The development embeds the tool's pure text algorithms (the JSONC
comment-stripping scanner, the trailing-comma removal pass, the strict JSON
decoder used for validation, and the three textual patch operations) as
executable Lean definitions, together with a model of the file-system state
they act on, and proves or refutes the specified properties.
-/

set_option maxRecDepth 10000

namespace Waybar

/-- Whitespace class of Python's regex class and of Python string stripping:
the ASCII whitespace characters together with the Unicode whitespace
code points that Python treats as whitespace. -/
def isPySpace (c : Char) : Bool :=
  let n := c.toNat
  (decide (0x09 ≤ n) && decide (n ≤ 0x0d)) || decide (n = 0x20) ||
  (decide (0x1c ≤ n) && decide (n ≤ 0x1f)) || decide (n = 0x85) ||
  decide (n = 0xa0) || decide (n = 0x1680) ||
  (decide (0x2000 ≤ n) && decide (n ≤ 0x200a)) || decide (n = 0x2028) ||
  decide (n = 0x2029) || decide (n = 0x202f) || decide (n = 0x205f) ||
  decide (n = 0x3000)

/-- Skip of a block comment body: the scan after `/*` advances one character
at a time while at least two characters remain and the next two are not
`*/`, then skips two more characters (the `*/`, or past end of input when
the comment is unterminated). Returns the remaining input. -/
def skipBlock : List Char → List Char
  | [] => []
  | c :: rest =>
    match rest with
    | [] => []
    | d :: rest2 => if c = '*' && d = '/' then rest2 else skipBlock rest

/-- The one-pass comment-stripping scanner of `strip_jsonc_comments`,
carrying the `in_string` and `escape_next` flags. The fuel argument makes
the recursion structural; the wrapper below supplies the input length,
which is always sufficient (the scan position advances by at least one
character per step). -/
def stripAuxF : Nat → List Char → Bool → Bool → List Char
  | _, [], _, _ => []
  | 0, _ :: _, _, _ => []
  | fuel + 1, c :: rest, inString, escapeNext =>
    if escapeNext then c :: stripAuxF fuel rest inString false
    else if c = '\\' && inString then c :: stripAuxF fuel rest inString true
    else if c = '"' then c :: stripAuxF fuel rest (!inString) escapeNext
    else if inString then c :: stripAuxF fuel rest inString escapeNext
    else if c = '/' then
      match rest with
      | [] => c :: stripAuxF fuel [] inString escapeNext
      | d :: rest2 =>
        if d = '/' then
          stripAuxF fuel (rest2.dropWhile (fun ch => !(ch = '\n')))
            inString escapeNext
        else if d = '*' then stripAuxF fuel (skipBlock rest2) inString escapeNext
        else c :: stripAuxF fuel (d :: rest2) inString escapeNext
    else c :: stripAuxF fuel rest inString escapeNext

def stripAux (l : List Char) (inString escapeNext : Bool) : List Char :=
  stripAuxF l.length l inString escapeNext

/-- `strip_jsonc_comments` from the source: strip `//` line comments and
`/* */` block comments, preserving string contents. -/
def strip_jsonc_comments (s : String) : String :=
  ⟨stripAux s.data false false⟩

/-- One left-to-right pass of `re.sub` with the trailing-comma pattern:
a comma followed by optional whitespace and a closing `]` or `\x7d` is
replaced by the whitespace and the bracket, scanning resuming after the
bracket; everything else is copied. Fuel-structured like the scanner. -/
def removeAuxF : Nat → List Char → List Char
  | _, [] => []
  | 0, _ :: _ => []
  | fuel + 1, c :: rest =>
    if c = ',' then
      match rest.dropWhile isPySpace with
      | b :: rest2 =>
        if b = '}' || b = ']' then
          rest.takeWhile isPySpace ++ b :: removeAuxF fuel rest2
        else
          c :: removeAuxF fuel rest
      | [] => c :: removeAuxF fuel rest
    else
      c :: removeAuxF fuel rest

def removeAux (l : List Char) : List Char := removeAuxF l.length l

/-- `remove_trailing_commas` from the source. -/
def remove_trailing_commas (s : String) : String :=
  ⟨removeAux s.data⟩

/-- The normalization pipeline applied by `parse_jsonc` before decoding. -/
def normalize (s : String) : String :=
  remove_trailing_commas (strip_jsonc_comments s)

/-- Decoded JSON values, with object key order preserved. Number tokens are
kept as their lexemes, which is sufficient for the membership queries the
tool performs. -/
inductive Json where
  | null : Json
  | bool (b : Bool) : Json
  | num (lexeme : String) : Json
  | str (s : String) : Json
  | arr (elems : List Json) : Json
  | obj (fields : List (String × Json)) : Json
deriving Repr

/-- Python's `==` between a string and a decoded JSON value: true exactly
for an equal decoded string. -/
def pyEqStr (needle : String) : Json → Bool
  | .str s => s == needle
  | _ => false

/-- Substring test on character lists (Python's `in` on two strings). -/
def containsSub (needle : List Char) : List Char → Bool
  | [] => needle.isEmpty
  | c :: rest => needle.isPrefixOf (c :: rest) || containsSub needle rest

/-- JSON token whitespace (the four characters a strict decoder skips). -/
def isJsonWs (c : Char) : Bool :=
  c = ' ' || c = '\t' || c = '\n' || c = '\r'

def hexVal (c : Char) : Option Nat :=
  if '0' ≤ c ∧ c ≤ '9' then some (c.toNat - 48)
  else if 'a' ≤ c ∧ c ≤ 'f' then some (c.toNat - 87)
  else if 'A' ≤ c ∧ c ≤ 'F' then some (c.toNat - 55)
  else none

/-- Body of a JSON string literal after the opening quote: decoded
characters plus the input remaining after the closing quote. Raw control
characters are rejected, escape sequences are decoded. -/
def parseStringBody : List Char → Option (List Char × List Char)
  | [] => none
  | '"' :: rest => some ([], rest)
  | '\\' :: 'u' :: h1 :: h2 :: h3 :: h4 :: rest =>
    match hexVal h1, hexVal h2, hexVal h3, hexVal h4 with
    | some a, some b, some c, some d =>
      (parseStringBody rest).map
        (fun p => (Char.ofNat (a * 4096 + b * 256 + c * 16 + d) :: p.1, p.2))
    | _, _, _, _ => none
  | '\\' :: e :: rest =>
    let decoded : Option Char :=
      if e = '"' then some '"'
      else if e = '\\' then some '\\'
      else if e = '/' then some '/'
      else if e = 'b' then some '\x08'
      else if e = 'f' then some '\x0c'
      else if e = 'n' then some '\n'
      else if e = 'r' then some '\r'
      else if e = 't' then some '\t'
      else none
    match decoded with
    | some c => (parseStringBody rest).map (fun p => (c :: p.1, p.2))
    | none => none
  | c :: rest =>
    if c.toNat < 0x20 then none
    else (parseStringBody rest).map (fun p => (c :: p.1, p.2))

/-- Fraction part of a JSON number (empty when absent). -/
def parseFrac (l : List Char) : Option (List Char × List Char) :=
  match l with
  | '.' :: r =>
    let ds := r.takeWhile Char.isDigit
    if ds.isEmpty then none else some ('.' :: ds, r.dropWhile Char.isDigit)
  | _ => some ([], l)

/-- Exponent part of a JSON number (empty when absent). -/
def parseExp (l : List Char) : Option (List Char × List Char) :=
  match l with
  | e :: r =>
    if e = 'e' ∨ e = 'E' then
      let p : List Char × List Char :=
        match r with
        | '+' :: r2 => (['+'], r2)
        | '-' :: r2 => (['-'], r2)
        | _ => ([], r)
      let ds := p.2.takeWhile Char.isDigit
      if ds.isEmpty then none
      else some (e :: p.1 ++ ds, p.2.dropWhile Char.isDigit)
    else some ([], l)
  | [] => some ([], [])

/-- A JSON number token (grammar `-?(0|[1-9][0-9]*)(\.[0-9]+)?([eE][+-]?[0-9]+)?`),
returned as its lexeme. -/
def parseNumber (l : List Char) : Option (List Char × List Char) :=
  let p : List Char × List Char :=
    match l with
    | '-' :: r => (['-'], r)
    | _ => ([], l)
  match p.2 with
  | [] => none
  | c :: r =>
    if c = '0' ∨ (c.isDigit ∧ ¬c = '0') then
      let intRest : List Char × List Char :=
        if c = '0' then ([], r)
        else (r.takeWhile Char.isDigit, r.dropWhile Char.isDigit)
      match parseFrac intRest.2 with
      | none => none
      | some (f, r2) =>
        match parseExp r2 with
        | none => none
        | some (ex, r3) => some (p.1 ++ c :: intRest.1 ++ f ++ ex, r3)
    else none

mutual

/-- A JSON value, fuel-indexed recursive descent. -/
def parseValue : Nat → List Char → Option (Json × List Char)
  | 0, _ => none
  | fuel + 1, l =>
    match l.dropWhile isJsonWs with
    | 'n' :: 'u' :: 'l' :: 'l' :: r => some (.null, r)
    | 't' :: 'r' :: 'u' :: 'e' :: r => some (.bool true, r)
    | 'f' :: 'a' :: 'l' :: 's' :: 'e' :: r => some (.bool false, r)
    | '"' :: r => (parseStringBody r).map (fun p => (.str ⟨p.1⟩, p.2))
    | '{' :: r =>
      (parseMembers fuel (r.dropWhile isJsonWs) true).map
        (fun p => (.obj p.1, p.2))
    | '[' :: r =>
      (parseElems fuel (r.dropWhile isJsonWs) true).map
        (fun p => (.arr p.1, p.2))
    | l2 => (parseNumber l2).map (fun p => (.num ⟨p.1⟩, p.2))

/-- Members of a JSON object after the opening brace and whitespace. -/
def parseMembers : Nat → List Char → Bool → Option (List (String × Json) × List Char)
  | 0, _, _ => none
  | fuel + 1, l, isFirst =>
    match l with
    | '}' :: r => if isFirst then some ([], r) else none
    | '"' :: r =>
      match parseStringBody r with
      | none => none
      | some (k, r1) =>
        match r1.dropWhile isJsonWs with
        | ':' :: r2 =>
          match parseValue fuel r2 with
          | none => none
          | some (v, r3) =>
            match r3.dropWhile isJsonWs with
            | ',' :: r4 =>
              match parseMembers fuel (r4.dropWhile isJsonWs) false with
              | none => none
              | some (kvs, r5) => some ((⟨k⟩, v) :: kvs, r5)
            | '}' :: r4 => some ([(⟨k⟩, v)], r4)
            | _ => none
        | _ => none
    | _ => none

/-- Elements of a JSON array after the opening bracket and whitespace. -/
def parseElems : Nat → List Char → Bool → Option (List Json × List Char)
  | 0, _, _ => none
  | fuel + 1, l, isFirst =>
    match l, isFirst with
    | ']' :: r, true => some ([], r)
    | _, _ =>
      match parseValue fuel l with
      | none => none
      | some (v, r1) =>
        match r1.dropWhile isJsonWs with
        | ',' :: r2 =>
          match parseElems fuel (r2.dropWhile isJsonWs) false with
          | none => none
          | some (vs, r3) => some (v :: vs, r3)
        | ']' :: r2 => some ([v], r2)
        | _ => none

end

/-- The strict JSON decode used by the tool (`json.loads`): a value followed
only by whitespace. -/
def json_loads (s : String) : Option Json :=
  match parseValue (2 * s.length + 4) s.data with
  | some (v, r) => if (r.dropWhile isJsonWs).isEmpty then some v else none
  | none => none

/-- `parse_jsonc` from the source: strip comments, remove trailing commas,
then decode strictly. -/
def parse_jsonc (s : String) : Option Json :=
  json_loads (normalize s)

/-- Python's `in` operator as the tool applies it (`needle in container`):
substring test on strings, element equality on lists, key membership on
dicts, and a `TypeError` (`none`) on the remaining JSON values. -/
def pythonIn (needle : String) : Json → Option Bool
  | .arr l => some (l.any (pyEqStr needle))
  | .str s => some (containsSub needle.data s.data)
  | .obj kvs => some (kvs.any (fun kv => kv.1 == needle))
  | _ => none

/-- Python dict lookup on decoded objects: the value of the last binding of
the key (later duplicate keys overwrite earlier ones in `json.loads`). -/
def dictGet (kvs : List (String × Json)) (k : String) : Option Json :=
  (kvs.reverse.find? (fun kv => kv.1 == k)).map (·.2)

/-! ### Textual patching of the config document -/

/-- The fatal error kinds of the tool (each aborts the process with a
non-zero exit after printing a diagnostic). `malformed` stands for a decode
failure, `typeErr` and `attrError` for the unhandled Python exceptions that
a non-iterable membership test or an attribute access on a non-dict value
raises. -/
inductive PErr where
  | missingFile : PErr
  | malformed : PErr
  | missingField : PErr
  | attrError : PErr
  | typeErr : PErr
  | anchorNotFound : PErr
deriving DecidableEq, Repr

def trayLit : List Char := "\"group/tray-expander\"".data

/-- Match of the pattern `"group/tray-expander"\s*,` at the head of the
input; on success the length of the match (the regex consumes the literal,
the greedy whitespace run and the comma). -/
def trayMatchLen (l : List Char) : Option Nat :=
  if trayLit.isPrefixOf l then
    let rest := l.drop trayLit.length
    let w := (rest.takeWhile isPySpace).length
    match rest.drop w with
    | d :: _ => if d = ',' then some (trayLit.length + w + 1) else none
    | [] => none
  else none

def mrLit : List Char := "\"modules-right\"".data

/-- Match of the pattern `"modules-right"\s*:\s*\[\s*` at the head of the
input; on success the length of the match (including the greedy trailing
whitespace group). -/
def mrMatchLen (l : List Char) : Option Nat :=
  if mrLit.isPrefixOf l then
    let r1 := l.drop mrLit.length
    let w1 := (r1.takeWhile isPySpace).length
    match r1.drop w1 with
    | d :: r2 =>
      if d = ':' then
        let w2 := (r2.takeWhile isPySpace).length
        match r2.drop w2 with
        | d2 :: r3 =>
          if d2 = '[' then
            some (mrLit.length + w1 + 1 + w2 + 1 + (r3.takeWhile isPySpace).length)
          else none
        | [] => none
      else none
    | [] => none
  else none

/-- `re.search` for a matcher giving the length of a match at a position:
the end position of the leftmost match. -/
def findLeft (f : List Char → Option Nat) : List Char → Option Nat
  | [] => f []
  | c :: rest =>
    match f (c :: rest) with
    | some n => some n
    | none => (findLeft f rest).map (· + 1)

def moduleInsertion1 : List Char := "\n    \"custom/vpn\",".data

def moduleInsertion2 : List Char := "\"custom/vpn\",\n    ".data

/-- Registration of `custom/vpn` in the raw config text: insertion after the
tray-expander anchor, else after the opening of the modules-right array,
else a fatal `AnchorNotFoundError`. -/
def insertModule (c : List Char) : Except PErr (List Char) :=
  match findLeft trayMatchLen c with
  | some e => .ok (c.take e ++ moduleInsertion1 ++ c.drop e)
  | none =>
    match findLeft mrMatchLen c with
    | some e => .ok (c.take e ++ moduleInsertion2 ++ c.drop e)
    | none => .error .anchorNotFound

/-- `content.rfind` for the closing brace: index of the last `\x7d`. -/
def rfindBrace : List Char → Option Nat
  | [] => none
  | c :: rest =>
    match rfindBrace rest with
    | some n => some (n + 1)
    | none => if c = '}' then some 0 else none

/-- Python `str.rstrip()`: remove trailing whitespace. -/
def pyRstrip : List Char → List Char
  | [] => []
  | c :: rest =>
    match pyRstrip rest with
    | [] => if isPySpace c then [] else [c]
    | r => c :: r

/-- The `custom/vpn` module definition block inserted into the config. -/
def vpnModuleText : List Char :=
  ("\n  \"custom/vpn\": \x7b\n    \"format\": \"\x7b\x7d\",\n    \"return-type\": \"json\",\n    \"exec\": \"~/.config/waybar/scripts/vpn-toggle.sh\",\n    \"on-click\": \"~/.config/waybar/scripts/vpn-toggle.sh toggle\",\n    \"interval\": 5\n  \x7d").data

/-- Insertion of the module definition before the last closing brace, with a
leading comma when the preceding text (after stripping trailing whitespace)
does not already end in one. -/
def insertDefinition (c : List Char) : Except PErr (List Char) :=
  match rfindBrace c with
  | none => .error .anchorNotFound
  | some p =>
    let pre := pyRstrip (c.take p)
    let needsComma := !(pre.getLast? == some ',')
    let vpn := if needsComma then ',' :: vpnModuleText else vpnModuleText
    .ok (c.take p ++ vpn ++ '\n' :: c.drop p)

/-! ### The file-system state and the three operations -/

/-- The files the tool touches: the config document, the stylesheet, the
toggle script, their backup siblings, the scripts directory and the script's
execute permission. -/
structure FS where
  config : Option String
  style : Option String
  script : Option String
  configBak : Option String
  styleBak : Option String
  scriptBak : Option String
  scriptsDirExists : Bool
  scriptExecutable : Bool
deriving DecidableEq, Repr

/-- `modify_config_jsonc`: validate via the normalizing parse, check the two
idempotency conditions, and if one fails back up the file and patch the raw
text. Errors carry the state at the moment the process exits. -/
def modify_config_jsonc (fs : FS) : Except (PErr × FS) (Bool × FS) :=
  match fs.config with
  | none => .error (.missingFile, fs)
  | some content =>
    match parse_jsonc content with
    | none => .error (.malformed, fs)
    | some cfg =>
      match pythonIn "modules-right" cfg with
      | none => .error (.typeErr, fs)
      | some false => .error (.missingField, fs)
      | some true =>
        match cfg with
        | .obj kvs =>
          let mr := (dictGet kvs "modules-right").getD (.arr [])
          match pythonIn "custom/vpn" mr with
          | none => .error (.typeErr, fs)
          | some hasMod =>
            let hasDef := kvs.any (fun kv => kv.1 == "custom/vpn")
            if hasMod && hasDef then .ok (false, fs)
            else
              let fs1 := { fs with configBak := some content }
              match (if hasMod then .ok content.data else insertModule content.data : Except PErr (List Char)) with
              | .error e => .error (e, fs1)
              | .ok c1 =>
                match (if hasDef then .ok c1 else insertDefinition c1 : Except PErr (List Char)) with
                | .error e => .error (e, fs1)
                | .ok c2 => .ok (true, { fs1 with config := some ⟨c2⟩ })
        | _ => .error (.attrError, fs)

/-- The CSS rule block appended to the stylesheet. -/
def css_block : String :=
  "\n#custom-vpn \x7b\n  min-width: 12px;\n  margin-left: 7.5px;\n  margin-right: 17px;\n\x7d\n"

/-- `modify_style_css`: skip when the selector substring is already present,
otherwise back up and append the rule block. -/
def modify_style_css (fs : FS) : Except (PErr × FS) (Bool × FS) :=
  match fs.style with
  | none => .error (.missingFile, fs)
  | some content =>
    if containsSub "#custom-vpn".data content.data then .ok (false, fs)
    else
      .ok (true, { fs with styleBak := some content,
                           style := some (content ++ css_block) })

def ICON_LOCK : Char := Char.ofNat 0xF033E

def ICON_LOCK_OPEN : Char := Char.ofNat 0xF0FC6

/-- `get_vpn_script_content`: the fixed toggle-script template with the two
icon glyphs interpolated. -/
def get_vpn_script_content : String :=
  "#!/bin/bash\nINTERFACE=\"home\"\n\nif ip link show \"$INTERFACE\" 2>/dev/null | grep -q \"state UP\"; then\n    if [[ \"$1\" == \"toggle\" ]]; then\n        sudo wg-quick down \"$INTERFACE\"\n    else\n        echo \x27\x7b\"text\": \""
  ++ String.singleton ICON_LOCK
  ++ "\", \"tooltip\": \"VPN: Connected\", \"class\": \"connected\"\x7d\x27\n    fi\nelse\n    if [[ \"$1\" == \"toggle\" ]]; then\n        sudo wg-quick up \"$INTERFACE\"\n    else\n        echo \x27\x7b\"text\": \""
  ++ String.singleton ICON_LOCK_OPEN
  ++ "\", \"tooltip\": \"VPN: Disconnected\", \"class\": \"disconnected\"\x7d\x27\n    fi\nfi\n"

/-- `create_vpn_script`: skip when the existing file matches the template
byte for byte; otherwise ensure the directory, write the script and add the
execute bits. No backup is ever taken. This operation cannot fail. -/
def create_vpn_script (fs : FS) : Bool × FS :=
  match fs.script with
  | some existing =>
    if existing == get_vpn_script_content then (false, fs)
    else
      (true, { fs with scriptsDirExists := true,
                       script := some get_vpn_script_content,
                       scriptExecutable := true })
  | none =>
    (true, { fs with scriptsDirExists := true,
                     script := some get_vpn_script_content,
                     scriptExecutable := true })

/-- `main`: the three operations in sequence; any fatal error aborts the
remainder of the run, leaving earlier mutations in place. -/
def main (fs : FS) : Except (PErr × FS) (Bool × Bool × Bool × FS) :=
  match modify_config_jsonc fs with
  | .error e => .error e
  | .ok (c, fs1) =>
    match modify_style_css fs1 with
    | .error e => .error e
    | .ok (s, fs2) =>
      let r := create_vpn_script fs2
      .ok (c, s, r.1, r.2)

/-! ### A canonical strict-JSON serializer, for stating the round-trip law -/

def hexDigit (n : Nat) : Char :=
  if n < 10 then Char.ofNat (48 + n) else Char.ofNat (87 + n)

/-- Standard JSON escaping of one character: quote, backslash and control
characters are escaped, everything else is emitted raw. -/
def escChar (c : Char) : List Char :=
  if c = '"' then ['\\', '"']
  else if c = '\\' then ['\\', '\\']
  else if c = '\n' then ['\\', 'n']
  else if c = '\r' then ['\\', 'r']
  else if c = '\t' then ['\\', 't']
  else if c = '\x08' then ['\\', 'b']
  else if c = '\x0c' then ['\\', 'f']
  else if c.toNat < 0x20 then
    ['\\', 'u', '0', '0', hexDigit (c.toNat / 16), hexDigit (c.toNat % 16)]
  else [c]

def escString : List Char → List Char
  | [] => []
  | c :: rest => escChar c ++ escString rest

mutual

/-- Canonical serialization of a JSON value: minimal whitespace-free strict
JSON text. -/
def ser : Json → List Char
  | .null => "null".data
  | .bool true => "true".data
  | .bool false => "false".data
  | .num s => s.data
  | .str s => '"' :: escString s.data ++ ['"']
  | .arr l => '[' :: serElems l ++ [']']
  | .obj kvs => '{' :: serFields kvs ++ ['}']

def serElems : List Json → List Char
  | [] => []
  | x :: xs =>
    match xs with
    | [] => ser x
    | _ :: _ => ser x ++ ',' :: serElems xs

def serFields : List (String × Json) → List Char
  | [] => []
  | kv :: rest =>
    match rest with
    | [] => '"' :: escString kv.1.data ++ '"' :: ':' :: ser kv.2
    | _ :: _ =>
      ('"' :: escString kv.1.data ++ '"' :: ':' :: ser kv.2) ++
        ',' :: serFields rest

end

def serialize (j : Json) : String := ⟨ser j⟩

/-- Check that no comma in the text is followed, after whitespace only, by a
closing brace or bracket (i.e. the trailing-comma pass leaves it alone). -/
def commaOkAt (rest : List Char) : Bool :=
  match rest.dropWhile isPySpace with
  | b :: _ => !(b = '}' || b = ']')
  | [] => true

def noCommaBracket : List Char → Bool
  | [] => true
  | c :: rest => (!(c = ',') || commaOkAt rest) && noCommaBracket rest

/-- Well-formed number lexeme characters. -/
def numChar (c : Char) : Bool :=
  c.isDigit || c = '-' || c = '+' || c = '.' || c = 'e' || c = 'E'

def numLexOk (s : List Char) : Bool :=
  !s.isEmpty && s.all numChar

mutual

/-- Side condition under which normalization is provably the identity on the
serialized text: number lexemes are well formed, and no string (key or
value) contains, in escaped form, a comma followed by whitespace only and
then a closing brace or bracket. -/
def jsonOk : Json → Bool
  | .null => true
  | .bool _ => true
  | .num s => numLexOk s.data
  | .str s => noCommaBracket (escString s.data)
  | .arr l => jsonOkList l
  | .obj kvs => jsonOkFields kvs

def jsonOkList : List Json → Bool
  | [] => true
  | x :: rest => jsonOk x && jsonOkList rest

def jsonOkFields : List (String × Json) → Bool
  | [] => true
  | kv :: rest =>
    noCommaBracket (escString kv.1.data) && jsonOk kv.2 && jsonOkFields rest

end

/-- Well-formed body of a string literal as the scanner sees it: a backslash
is always followed by a character, and an unescaped quote never occurs. -/
def stringBodyOk : List Char → Bool
  | [] => true
  | c :: rest =>
    if c = '\\' then
      match rest with
      | [] => false
      | _ :: rest2 => stringBodyOk rest2
    else !(c = '"') && stringBodyOk rest

/-- Whether the text contains an adjacent `*/` pair. -/
def hasStarSlash : List Char → Bool
  | [] => false
  | c :: rest =>
    match rest with
    | [] => false
    | d :: _ => (c = '*' && d = '/') || hasStarSlash rest

/-- The last character exists and is neither whitespace nor a comma. -/
def lastOk (l : List Char) : Bool :=
  match l.getLast? with
  | some c => !isPySpace c && !(c = ',')
  | none => false

/-- The first character exists and is neither whitespace nor a closing
bracket. -/
def headOkSer (l : List Char) : Bool :=
  match l.head? with
  | some c => !isPySpace c && !(c = '}') && !(c = ']')
  | none => false

/-- Bundle of the serialized-text facts carried through the serializer
induction for the trailing-comma pass. -/
def serGood (l : List Char) : Bool :=
  noCommaBracket l && lastOk l && headOkSer l

/-- A concrete JSON value used to exercise the round-trip law. -/
def jC1w : Json :=
  Json.obj [("a", Json.arr [Json.num "1", Json.str "x"]), ("b", Json.null)]

/-- A strict-JSON input on which normalization is not semantics-preserving:
the only comma of the document lives inside a string literal, directly
before the closing brace. -/
def cexC1 : String := "\x7b\"a\": \",\x7d\"\x7d"

/-- A document whose only string value contains the comment-like sequence
`//`: the comment pass preserves it, but the trailing-comma pass rewrites
it. -/
def cexC5 : String := "\x7b\"k\": \",\x7d //\"\x7d"

/-! ### Concrete scenarios used in witnesses and counterexamples -/

/-- A file-system state with the given file contents and no backups. -/
def fsWith (config style script : Option String) : FS :=
  { config := config, style := style, script := script,
    configBak := none, styleBak := none, scriptBak := none,
    scriptsDirExists := false, scriptExecutable := false }

def c6input : List Char := "\x7b\"a\": 1\x7d".data

def cfgC8 : String := "\x7b\"modules-right\": [\"custom/vpn\"], \"custom/vpn\": 1\x7d"

def fsC8 : FS :=
  fsWith (some cfgC8) (some "#custom-vpn \x7b color: red \x7d")
    (some get_vpn_script_content)

def cfgC4 : String :=
  "\x7b\"modules-right\": \"xcustom/vpnx\", \"custom/vpn\": 1\x7d"

def fsC4 : FS := fsWith (some cfgC4) (some "x") none

def fsNoKey : FS := fsWith (some "\x7b\"a\": 1\x7d") (some "x") none

def fsMissing : FS := fsWith none (some "x") none

def fsC7 : FS := fsWith none none (some "old")

def cfgC7w : String := "\x7b\"modules-right\": []\x7d"

def fsC7w : FS := fsWith (some cfgC7w) (some "body") none

/-- Specification-level match of the tray-expander anchor at position `i`
of the document: the literal, then a whitespace run, then a comma; `e` is
the position just after that comma. -/
def trayAt (c : List Char) (i e : Nat) : Prop :=
  ∃ ws rest, ws.all isPySpace = true ∧
    c.drop i = trayLit ++ (ws ++ ',' :: rest) ∧
    e = i + trayLit.length + ws.length + 1

/-- Specification-level match of the modules-right array opening at
position `i`: the literal, whitespace, colon, whitespace, opening bracket,
then the maximal whitespace run; `e` is the position after that run. -/
def mrAt (c : List Char) (i e : Nat) : Prop :=
  ∃ w1 w2 w3 rest, w1.all isPySpace = true ∧ w2.all isPySpace = true ∧
    w3.all isPySpace = true ∧
    (∀ d, rest.head? = some d → isPySpace d = false) ∧
    c.drop i = mrLit ++ (w1 ++ ':' :: (w2 ++ '[' :: (w3 ++ rest))) ∧
    e = i + mrLit.length + w1.length + 1 + w2.length + 1 + w3.length

def inputA : List Char :=
  "\x7b\"modules-right\": [\"group/tray-expander\" ,\"x\"]\x7d".data

def outputA : List Char :=
  "\x7b\"modules-right\": [\"group/tray-expander\" ,\n    \"custom/vpn\",\"x\"]\x7d".data

def inputB : List Char := "\x7b\"modules-right\": [ \"x\"]\x7d".data

def outputB : List Char :=
  "\x7b\"modules-right\": [ \"custom/vpn\",\n    \"x\"]\x7d".data

/-- The prefix every output would start with if `"custom/vpn",` were
inserted immediately after the opening bracket of the modules-right
array in `inputA`/`inputB`. -/
def claimedBracketPrefix : List Char := "\x7b\"modules-right\": [\"custom/vpn\"".data

def cfgC2w : String :=
  "\x7b\n  \"modules-right\": [\n    \"group/tray-expander\",\n    \"clock\"\n  ]\n\x7d"

def styleC2w : String := "window \x7b color: red; \x7d\n"

def fsC2w : FS := fsWith (some cfgC2w) (some styleC2w) none

/-- The config text produced by the first run on `fsC2w`. -/
def cfgC2w1 : String :=
  "\x7b\n  \"modules-right\": [\n    \"group/tray-expander\",\n    \"custom/vpn\",\n    \"clock\"\n  ]\n,\n  \"custom/vpn\": \x7b\n    \"format\": \"\x7b\x7d\",\n    \"return-type\": \"json\",\n    \"exec\": \"~/.config/waybar/scripts/vpn-toggle.sh\",\n    \"on-click\": \"~/.config/waybar/scripts/vpn-toggle.sh toggle\",\n    \"interval\": 5\n  \x7d\n\x7d"

/-- The state after the first full run on `fsC2w`. -/
def fsC2w1 : FS :=
  { config := some cfgC2w1,
    style := some (styleC2w ++ css_block),
    script := some get_vpn_script_content,
    configBak := some cfgC2w, styleBak := some styleC2w, scriptBak := none,
    scriptsDirExists := true, scriptExecutable := true }

def mrC2 : List Json :=
  [Json.str "group/tray-expander", Json.str "custom/vpn", Json.str "clock"]

/-- The decoded fields of `cfgC2w1`. -/
def kvsC2 : List (String × Json) :=
  [("modules-right", Json.arr mrC2),
   ("custom/vpn", Json.obj
      [("format", Json.str "\x7b\x7d"),
       ("return-type", Json.str "json"),
       ("exec", Json.str "~/.config/waybar/scripts/vpn-toggle.sh"),
       ("on-click", Json.str "~/.config/waybar/scripts/vpn-toggle.sh toggle"),
       ("interval", Json.num "5")])]

/-- A starting state whose config contains the tray-expander anchor only
inside a line comment; the first run's textual insertion then corrupts the
document and the second run aborts on a decode error. -/
def fsC2cex : FS :=
  fsWith (some "\x7b\"modules-right\": [], // \"group/tray-expander\",\n\x7d")
    (some "x") none

/-- The state after the config operation on `fsC7w`. -/
def fsC7wConfigRes : FS :=
  { config := some "\x7b\"modules-right\": [\"custom/vpn\",\n    ],\n  \"custom/vpn\": \x7b\n    \"format\": \"\x7b\x7d\",\n    \"return-type\": \"json\",\n    \"exec\": \"~/.config/waybar/scripts/vpn-toggle.sh\",\n    \"on-click\": \"~/.config/waybar/scripts/vpn-toggle.sh toggle\",\n    \"interval\": 5\n  \x7d\n\x7d",
    style := some "body", script := none,
    configBak := some cfgC7w, styleBak := none, scriptBak := none,
    scriptsDirExists := false, scriptExecutable := false }

/-- The state after the stylesheet operation on `fsC7w`. -/
def fsC7wStyleRes : FS :=
  { config := some cfgC7w,
    style := some ("body" ++ css_block), script := none,
    configBak := none, styleBak := some "body", scriptBak := none,
    scriptsDirExists := false, scriptExecutable := false }

end Waybar

namespace Waybar

/-! ## Basic facts about the comment-stripping scanner -/

theorem skipBlock_cons_eq (a d : Char) (rest2 : List Char) :
    skipBlock (a :: d :: rest2)
      = if a = '*' && d = '/' then rest2 else skipBlock (d :: rest2) := by
  simp only [skipBlock]

theorem skipBlock_length_le (l : List Char) : (skipBlock l).length ≤ l.length := by
  induction l using skipBlock.induct with
  | case1 => simp [skipBlock]
  | case2 a => simp [skipBlock]
  | case3 a d rest2 h =>
    rw [skipBlock_cons_eq, if_pos h]
    simp; omega
  | case4 a d rest2 h ih =>
    rw [skipBlock_cons_eq, if_neg h]
    simp only [List.length_cons] at *
    omega

theorem dropWhile_length_le (p : Char → Bool) (l : List Char) :
    (l.dropWhile p).length ≤ l.length :=
  (List.dropWhile_sublist p).length_le

/-- Any fuel at least the input length gives the same scan result. -/
theorem stripAuxF_congr : ∀ (f1 f2 : Nat) (l : List Char) (a b : Bool),
    l.length ≤ f1 → l.length ≤ f2 → stripAuxF f1 l a b = stripAuxF f2 l a b := by
  intro f1
  induction f1 with
  | zero =>
    intro f2 l a b h1 h2
    have : l = [] := by cases l <;> simp_all
    subst this
    cases f2 <;> rfl
  | succ f ih =>
    intro f2 l a b h1 h2
    cases l with
    | nil => cases f2 <;> rfl
    | cons c rest =>
      cases f2 with
      | zero => simp at h2
      | succ g =>
        simp only [List.length_cons, Nat.add_le_add_iff_right] at h1 h2
        simp only [stripAuxF]
        by_cases hesc : b = true
        · simp only [if_pos hesc]
          rw [ih g rest a false h1 h2]
        · simp only [if_neg hesc]
          by_cases hbs : (c = '\\' && a) = true
          · simp only [if_pos hbs]
            rw [ih g rest a true h1 h2]
          · simp only [if_neg hbs]
            by_cases hq : c = '"'
            · simp only [if_pos hq]
              rw [ih g rest (!a) b h1 h2]
            · simp only [if_neg hq]
              by_cases hin : a = true
              · simp only [if_pos hin]
                rw [ih g rest a b h1 h2]
              · simp only [if_neg hin]
                by_cases hsl : c = '/'
                · simp only [if_pos hsl]
                  cases rest with
                  | nil => simp [stripAuxF]
                  | cons d rest2 =>
                    simp only [List.length_cons] at h1 h2
                    by_cases hd1 : d = '/'
                    · simp only [if_pos hd1]
                      have hw := dropWhile_length_le
                        (fun ch => !(ch = '\n')) rest2
                      rw [ih g _ a b (by omega) (by omega)]
                    · simp only [if_neg hd1]
                      by_cases hd2 : d = '*'
                      · simp only [if_pos hd2]
                        have hw := skipBlock_length_le rest2
                        rw [ih g _ a b (by omega) (by omega)]
                      · simp only [if_neg hd2]
                        rw [ih g (d :: rest2) a b
                          (by simp; omega) (by simp; omega)]
                · simp only [if_neg hsl]
                  rw [ih g rest a b h1 h2]

theorem stripAux_nil (a b : Bool) : stripAux [] a b = [] := rfl

theorem stripAux_escape (c : Char) (rest : List Char) (inS : Bool) :
    stripAux (c :: rest) inS true = c :: stripAux rest inS false := by
  simp [stripAux, stripAuxF, List.length_cons]

theorem stripAux_backslash (rest : List Char) :
    stripAux ('\\' :: rest) true false = '\\' :: stripAux rest true true := by
  simp [stripAux, stripAuxF, List.length_cons]

theorem stripAux_quote (rest : List Char) (b : Bool) :
    stripAux ('"' :: rest) b false = '"' :: stripAux rest (!b) false := by
  simp [stripAux, stripAuxF, List.length_cons]

theorem stripAux_inStr_plain (c : Char) (rest : List Char) (h1 : ¬c = '"')
    (h2 : ¬c = '\\') :
    stripAux (c :: rest) true false = c :: stripAux rest true false := by
  simp [stripAux, stripAuxF, List.length_cons, h1, h2]

theorem stripAux_lineComment (rest2 : List Char) :
    stripAux ('/' :: '/' :: rest2) false false
      = stripAux (rest2.dropWhile (fun ch => !(ch = '\n'))) false false := by
  have h1 : stripAux ('/' :: '/' :: rest2) false false
      = stripAuxF (rest2.length + 1)
          (rest2.dropWhile (fun ch => !(ch = '\n'))) false false := by
    simp [stripAux, stripAuxF, List.length_cons]
  rw [h1, stripAux]
  exact stripAuxF_congr _ _ _ _ _
    (le_trans (dropWhile_length_le _ _) (by omega)) (le_refl _)

theorem stripAux_blockComment (rest2 : List Char) :
    stripAux ('/' :: '*' :: rest2) false false
      = stripAux (skipBlock rest2) false false := by
  have h1 : stripAux ('/' :: '*' :: rest2) false false
      = stripAuxF (rest2.length + 1) (skipBlock rest2) false false := by
    simp [stripAux, stripAuxF, List.length_cons]
  rw [h1, stripAux]
  exact stripAuxF_congr _ _ _ _ _
    (le_trans (skipBlock_length_le _) (by omega)) (le_refl _)

theorem stripAux_slash_nil :
    stripAux ['/'] false false = ['/'] := by
  simp [stripAux, stripAuxF]

theorem stripAux_slash_other (d : Char) (rest2 : List Char) (h1 : ¬d = '/')
    (h2 : ¬d = '*') :
    stripAux ('/' :: d :: rest2) false false
      = '/' :: stripAux (d :: rest2) false false := by
  simp [stripAux, stripAuxF, List.length_cons, h1, h2]

theorem stripAux_copy (c : Char) (rest : List Char) (h1 : ¬c = '"')
    (h2 : ¬c = '/') :
    stripAux (c :: rest) false false = c :: stripAux rest false false := by
  simp [stripAux, stripAuxF, List.length_cons, h1, h2]

/-- Inside a string, a well-formed body is copied verbatim up to and
including the closing quote, after which scanning continues outside the
string. -/
theorem stripAux_inString (s : List Char) (t : List Char)
    (h : stringBodyOk s = true) :
    stripAux (s ++ '"' :: t) true false = s ++ '"' :: stripAux t false false := by
  induction s using stringBodyOk.induct with
  | case1 => simpa using stripAux_quote t true
  | case2 => simp [stringBodyOk] at h
  | case3 d rest2 ih =>
    rw [stringBodyOk.eq_def] at h
    simp at h
    simp only [List.cons_append]
    rw [stripAux_backslash, stripAux_escape, ih h]
  | case4 c rest2 hc ih =>
    rw [stringBodyOk.eq_def] at h
    simp [hc] at h
    simp only [List.cons_append]
    rw [stripAux_inStr_plain _ _ h.1 hc, ih h.2]

/-- Inside a string, a well-formed body followed by a final backslash is
copied verbatim and the scan ends normally. -/
theorem stripAux_inString_end (s : List Char) (h : stringBodyOk s = true) :
    stripAux (s ++ ['\\']) true false = s ++ ['\\'] := by
  induction s using stringBodyOk.induct with
  | case1 => simp [stripAux_backslash, stripAux_nil]
  | case2 => simp [stringBodyOk] at h
  | case3 d rest2 ih =>
    rw [stringBodyOk.eq_def] at h
    simp at h
    simp only [List.cons_append]
    rw [stripAux_backslash, stripAux_escape, ih h]
  | case4 c rest2 hc ih =>
    rw [stringBodyOk.eq_def] at h
    simp [hc] at h
    simp only [List.cons_append]
    rw [stripAux_inStr_plain _ _ h.1 hc, ih h.2]

theorem skipBlock_sublist (l : List Char) : List.Sublist (skipBlock l) l := by
  induction l using skipBlock.induct with
  | case1 => simp [skipBlock]
  | case2 a => simp [skipBlock]
  | case3 a d rest2 h =>
    rw [skipBlock_cons_eq, if_pos h]
    exact (List.sublist_cons_self _ _).trans (List.sublist_cons_self _ _)
  | case4 a d rest2 h ih =>
    rw [skipBlock_cons_eq, if_neg h]
    exact ih.trans (List.sublist_cons_self _ _)

theorem stripAuxF_sublist (f : Nat) (l : List Char) (a b : Bool) :
    List.Sublist (stripAuxF f l a b) l := by
  induction f, l, a, b using stripAuxF.induct with
  | case1 f a b => cases f <;> simp [stripAuxF]
  | case2 c rest a b => simp [stripAuxF]
  | case3 f c rest inS ih =>
    rw [show stripAuxF (f + 1) (c :: rest) inS true
        = c :: stripAuxF f rest inS false by simp [stripAuxF]]
    exact ih.cons₂ c
  | case4 f c rest inS esc h1 h2 ih =>
    rw [show stripAuxF (f + 1) (c :: rest) inS esc
        = c :: stripAuxF f rest inS true by simp [stripAuxF, h1, h2]]
    exact ih.cons₂ c
  | case5 f rest inS esc h1 h2 ih =>
    rw [show stripAuxF (f + 1) ('"' :: rest) inS esc
        = '"' :: stripAuxF f rest (!inS) esc by simp [stripAuxF, h1]]
    exact ih.cons₂ _
  | case6 f c rest esc h1 h2 h3 ih =>
    have hbs : ¬c = '\\' := by simpa using h3
    rw [show stripAuxF (f + 1) (c :: rest) true esc
        = c :: stripAuxF f rest true esc by simp [stripAuxF, h1, h2, hbs]]
    exact ih.cons₂ c
  | case7 f inS esc h1 h2 h3 h4 ih =>
    rw [show stripAuxF (f + 1) ['/'] inS esc
        = '/' :: stripAuxF f [] inS esc by simp [stripAuxF, h1, h2]]
    rw [show stripAuxF f ([] : List Char) inS esc = [] by cases f <;> rfl]
  | case8 f inS esc h1 h2 rest2 h3 h4 ih =>
    rw [show stripAuxF (f + 1) ('/' :: '/' :: rest2) inS esc
        = stripAuxF f (rest2.dropWhile (fun ch => !(ch = '\n'))) inS esc by
      simp [stripAuxF, h1, h2]]
    exact (ih.trans (List.dropWhile_sublist _)).trans
      ((List.sublist_cons_self _ _).trans (List.sublist_cons_self _ _))
  | case9 f inS esc h1 h2 rest2 h3 h4 h5 ih =>
    rw [show stripAuxF (f + 1) ('/' :: '*' :: rest2) inS esc
        = stripAuxF f (skipBlock rest2) inS esc by simp [stripAuxF, h1, h2]]
    exact (ih.trans (skipBlock_sublist _)).trans
      ((List.sublist_cons_self _ _).trans (List.sublist_cons_self _ _))
  | case10 f inS esc h1 h2 d rest2 hd1 hd2 h5 h6 ih =>
    rw [show stripAuxF (f + 1) ('/' :: d :: rest2) inS esc
        = '/' :: stripAuxF f (d :: rest2) inS esc by
      simp [stripAuxF, h1, h2, hd1, hd2]]
    exact ih.cons₂ _
  | case11 f c rest inS esc h1 h2 h3 h4 h5 ih =>
    rw [show stripAuxF (f + 1) (c :: rest) inS esc
        = c :: stripAuxF f rest inS esc by simp [stripAuxF, h1, h2, h3, h4, h5]]
    exact ih.cons₂ c

theorem stripAux_sublist (l : List Char) (a b : Bool) :
    List.Sublist (stripAux l a b) l :=
  stripAuxF_sublist l.length l a b

/-- Any fuel at least the input length gives the same removal result. -/
theorem removeAuxF_congr : ∀ (f1 f2 : Nat) (l : List Char),
    l.length ≤ f1 → l.length ≤ f2 → removeAuxF f1 l = removeAuxF f2 l := by
  intro f1
  induction f1 with
  | zero =>
    intro f2 l h1 h2
    have : l = [] := by cases l <;> simp_all
    subst this
    cases f2 <;> rfl
  | succ f ih =>
    intro f2 l h1 h2
    cases l with
    | nil => cases f2 <;> rfl
    | cons c rest =>
      cases f2 with
      | zero => simp at h2
      | succ g =>
        simp only [List.length_cons, Nat.add_le_add_iff_right] at h1 h2
        simp only [removeAuxF]
        by_cases hc : c = ','
        · simp only [if_pos hc]
          cases hdw : rest.dropWhile isPySpace with
          | nil => rw [ih g rest h1 h2]
          | cons b rest2 =>
            have hlen : rest2.length < rest.length := by
              have := dropWhile_length_le isPySpace rest
              rw [hdw] at this
              simp only [List.length_cons] at this
              omega
            by_cases hb : (b = '}' || b = ']') = true
            · simp only [if_pos hb]
              rw [ih g rest2 (by omega) (by omega)]
            · simp only [if_neg hb]
              rw [ih g rest h1 h2]
        · simp only [if_neg hc]
          rw [ih g rest h1 h2]

theorem removeAux_nil : removeAux [] = [] := rfl

theorem removeAux_other (c : Char) (rest : List Char) (h : ¬c = ',') :
    removeAux (c :: rest) = c :: removeAux rest := by
  simp [removeAux, removeAuxF, List.length_cons, h]

theorem removeAux_comma_hit (rest : List Char) (b : Char) (rest2 : List Char)
    (hd : rest.dropWhile isPySpace = b :: rest2)
    (hb : (b = '}' || b = ']') = true) :
    removeAux (',' :: rest)
      = rest.takeWhile isPySpace ++ b :: removeAux rest2 := by
  have hlen : rest2.length < rest.length := by
    have := dropWhile_length_le isPySpace rest
    rw [hd] at this
    simp only [List.length_cons] at this
    omega
  simp only [removeAux, removeAuxF, List.length_cons, hd, hb, if_true, if_pos rfl]
  rw [removeAuxF_congr rest.length rest2.length rest2 (by omega) (le_refl _)]

theorem removeAux_comma_miss (rest : List Char) (b : Char) (rest2 : List Char)
    (hd : rest.dropWhile isPySpace = b :: rest2)
    (hb : ¬(b = '}' || b = ']') = true) :
    removeAux (',' :: rest) = ',' :: removeAux rest := by
  simp only [removeAux, removeAuxF, List.length_cons, hd, if_pos rfl]
  rw [if_neg hb]
  simp

theorem removeAux_comma_nil (rest : List Char)
    (hd : rest.dropWhile isPySpace = []) :
    removeAux (',' :: rest) = ',' :: removeAux rest := by
  simp only [removeAux, removeAuxF, List.length_cons, hd, if_pos rfl]
  simp

theorem removeAuxF_sublist (f : Nat) (l : List Char) :
    List.Sublist (removeAuxF f l) l := by
  induction f, l using removeAuxF.induct with
  | case1 f => cases f <;> simp [removeAuxF]
  | case2 c rest => simp [removeAuxF]
  | case3 f rest b rest2 hd hb ih =>
    rw [show removeAuxF (f + 1) (',' :: rest)
        = rest.takeWhile isPySpace ++ b :: removeAuxF f rest2 by
      simp [removeAuxF, hd, hb]]
    have s1 : List.Sublist (rest.takeWhile isPySpace ++ b :: removeAuxF f rest2)
        (rest.takeWhile isPySpace ++ b :: rest2) :=
      List.Sublist.append_left (ih.cons₂ b) _
    have s2 : rest.takeWhile isPySpace ++ b :: rest2 = rest := by
      rw [← hd]; exact List.takeWhile_append_dropWhile isPySpace rest
    exact (s2 ▸ s1).trans (List.sublist_cons_self ',' rest)
  | case4 f rest b rest2 hd hb ih =>
    rw [show removeAuxF (f + 1) (',' :: rest) = ',' :: removeAuxF f rest by
      simp [removeAuxF, hd, hb]]
    exact ih.cons₂ ','
  | case5 f rest hd ih =>
    rw [show removeAuxF (f + 1) (',' :: rest) = ',' :: removeAuxF f rest by
      simp [removeAuxF, hd]]
    exact ih.cons₂ ','
  | case6 f c rest hc ih =>
    rw [show removeAuxF (f + 1) (c :: rest) = c :: removeAuxF f rest by
      simp [removeAuxF, hc]]
    exact ih.cons₂ c

/-- The trailing-comma pass only ever deletes characters. -/
theorem removeAux_sublist (l : List Char) : List.Sublist (removeAux l) l :=
  removeAuxF_sublist l.length l

/-- Claim C10: for every input string, the output of normalization (comment
stripping followed by trailing-comma removal) is a subsequence of the input:
both passes only delete characters, never inserting, replacing or
reordering. -/
theorem claim_C10_normalize_subsequence (s : String) :
    List.Sublist (strip_jsonc_comments s).data s.data ∧
    List.Sublist (remove_trailing_commas s).data s.data ∧
    List.Sublist (normalize s).data s.data := by
  refine ⟨stripAux_sublist s.data false false, removeAux_sublist s.data, ?_⟩
  exact (removeAux_sublist _).trans (stripAux_sublist s.data false false)

theorem hasStarSlash_cons2 (a d : Char) (r : List Char) :
    hasStarSlash (a :: d :: r)
      = ((a = '*' && d = '/') || hasStarSlash (d :: r)) := by
  simp only [hasStarSlash]

theorem skipBlock_eq_nil (u : List Char) (h : hasStarSlash u = false) :
    skipBlock u = [] := by
  induction u using skipBlock.induct with
  | case1 => simp [skipBlock]
  | case2 a => simp [skipBlock]
  | case3 a d rest2 hsd =>
    rw [hasStarSlash_cons2] at h
    simp only [hsd] at h
    simp at h
  | case4 a d rest2 hsd ih =>
    rw [skipBlock_cons_eq, if_neg hsd]
    rw [hasStarSlash_cons2] at h
    exact ih (by simpa using (Bool.or_eq_false_iff.mp h).2)

theorem skipBlock_append (u v : List Char) (h : hasStarSlash u = false) :
    skipBlock (u ++ '*' :: '/' :: v) = v := by
  induction u with
  | nil =>
    rw [List.nil_append, skipBlock_cons_eq]
    simp
  | cons a u' ih =>
    cases u' with
    | nil =>
      rw [show [a] ++ '*' :: '/' :: v = a :: '*' :: '/' :: v from rfl,
        skipBlock_cons_eq]
      rw [if_neg (by simp)]
      rw [skipBlock_cons_eq]
      simp
    | cons b u'' =>
      rw [hasStarSlash_cons2] at h
      have h1 : ¬(a = '*' && b = '/') = true := by
        simpa using (Bool.or_eq_false_iff.mp h).1
      have h2 : hasStarSlash (b :: u'') = false := (Bool.or_eq_false_iff.mp h).2
      rw [show (a :: b :: u'') ++ '*' :: '/' :: v
            = a :: b :: (u'' ++ '*' :: '/' :: v) from rfl,
        skipBlock_cons_eq]
      rw [if_neg h1]
      exact ih h2

/-- Claim C9: the scan is total on every input: an unterminated block
comment consumes everything from the opening marker to the end of the
input without error, and an input ending in a backslash inside a string
(an escape with no following character) is scanned to completion with the
text preserved. -/
theorem claim_C9_scan_total_edges :
    (∀ u : List Char, hasStarSlash u = false →
        stripAux ('/' :: '*' :: u) false false = []) ∧
    (∀ s : List Char, stringBodyOk s = true →
        stripAux ('"' :: (s ++ ['\\'])) false false = '"' :: (s ++ ['\\'])) := by
  constructor
  · intro u h
    rw [stripAux_blockComment, skipBlock_eq_nil u h, stripAux_nil]
  · intro s h
    rw [stripAux_quote]
    simp only [Bool.not_false]
    rw [stripAux_inString_end s h]

theorem claim_C9_scan_total_edges_witness :
    hasStarSlash "abc".data = false ∧
    stringBodyOk "ab".data = true ∧
    stripAux ('/' :: '*' :: "abc".data) false false = [] ∧
    stripAux ('"' :: ("ab".data ++ ['\\'])) false false
      = '"' :: ("ab".data ++ ['\\']) :=
  ⟨by decide, by decide,
    claim_C9_scan_total_edges.1 "abc".data (by decide),
    claim_C9_scan_total_edges.2 "ab".data (by decide)⟩

/-- Claim C5 (amended): the comment-stripping pass preserves unchanged any
string value containing comment-like sequences (the scanner copies any
well-formed string body verbatim); a line comment outside a string is
removed up to but not including the next newline; a block comment outside
a string is removed up to and including the closing marker. The full
normalization pipeline does not share this guarantee: its second pass, the
trailing-comma regex, also rewrites the inside of string literals, so a
string value containing a comma-like sequence can change even when it also
contains a comment-like sequence. -/
theorem claim_C5_comment_stripping :
    (∀ s t : List Char, stringBodyOk s = true →
        stripAux ('"' :: (s ++ '"' :: t)) false false
          = '"' :: (s ++ '"' :: stripAux t false false)) ∧
    (∀ u rest : List Char, u.all (fun ch => !(ch = '\n')) = true →
        stripAux ('/' :: '/' :: (u ++ '\n' :: rest)) false false
          = '\n' :: stripAux rest false false) ∧
    (∀ u v : List Char, hasStarSlash u = false →
        stripAux ('/' :: '*' :: (u ++ '*' :: '/' :: v)) false false
          = stripAux v false false) := by
  refine ⟨?_, ?_, ?_⟩
  · intro s t h
    rw [stripAux_quote]
    simp only [Bool.not_false]
    rw [stripAux_inString s t h]
  · intro u rest h
    rw [stripAux_lineComment]
    have hu : u.dropWhile (fun ch => !(ch = '\n')) = [] := by
      rw [List.dropWhile_eq_nil_iff]
      intro x hx
      exact List.all_eq_true.mp h x hx
    have hdw : (u ++ '\n' :: rest).dropWhile (fun ch => !(ch = '\n'))
        = '\n' :: rest := by
      rw [List.dropWhile_append, hu]
      simp [List.dropWhile_cons]
    rw [hdw, stripAux_copy _ _ (by decide) (by decide)]
  · intro u v h
    rw [stripAux_blockComment, skipBlock_append u v h]

theorem claim_C5_comment_stripping_witness :
    stringBodyOk "a//b".data = true ∧
    stripAux ('"' :: ("a//b".data ++ '"' :: " 1".data)) false false
      = '"' :: ("a//b".data ++ '"' :: " 1".data) ∧
    stripAux ('/' :: '/' :: ("ab".data ++ '\n' :: "x".data)) false false
      = '\n' :: "x".data ∧
    stripAux ('/' :: '*' :: ("ab".data ++ '*' :: '/' :: "x".data)) false false
      = "x".data := by
  refine ⟨by decide, ?_, ?_, ?_⟩
  · rw [claim_C5_comment_stripping.1 "a//b".data " 1".data (by decide)]
    decide
  · rw [claim_C5_comment_stripping.2.1 "ab".data "x".data (by decide)]
    decide
  · rw [claim_C5_comment_stripping.2.2 "ab".data "x".data (by decide)]
    decide

/-- Counterexample to claim C5 as stated: the string value of `cexC5`
contains the two-character sequence `//`, and the comment-stripping pass
leaves the whole document unchanged, yet full normalization (comment
stripping followed by trailing-comma removal) deletes the comma inside the
string, so the string value does not survive normalization unchanged. -/
theorem claim_C5_counterexample :
    containsSub "//".data ",\x7d //".data = true ∧
    json_loads cexC5 = some (Json.obj [("k", Json.str ",\x7d //")]) ∧
    strip_jsonc_comments cexC5 = cexC5 ∧
    normalize cexC5 = "\x7b\"k\": \"\x7d //\"\x7d" ∧
    json_loads (normalize cexC5) = some (Json.obj [("k", Json.str "\x7d //")]) ∧
    ¬(Json.str ",\x7d //" = Json.str "\x7d //") :=
  ⟨rfl, rfl, rfl, rfl, rfl, by simp⟩

/-! ## The comma rule for the module-definition insertion (claim C6) -/

theorem pyRstrip_cons (c : Char) (rest : List Char) :
    pyRstrip (c :: rest)
      = match pyRstrip rest with
        | [] => if isPySpace c then [] else [c]
        | r => c :: r := by
  simp only [pyRstrip]

theorem pyRstrip_eq (l : List Char) :
    pyRstrip l = (l.reverse.dropWhile isPySpace).reverse := by
  induction l with
  | nil => rfl
  | cons c rest ih =>
    rw [pyRstrip_cons]
    cases hr : pyRstrip rest with
    | nil =>
      have hrev : rest.reverse.dropWhile isPySpace = [] := by
        have := ih
        rw [hr] at this
        have := congrArg List.reverse this
        simpa using this.symm
      simp only [List.reverse_cons, List.dropWhile_append, hrev]
      by_cases hc : isPySpace c
      · simp [hc]
      · simp [hc]
    | cons x xs =>
      have hrev : rest.reverse.dropWhile isPySpace = (x :: xs).reverse := by
        have := ih
        rw [hr] at this
        have := congrArg List.reverse this
        simpa using this.symm
      simp only [List.reverse_cons, List.dropWhile_append, hrev]
      simp [ih, hr]

theorem pyRstrip_getLast (l : List Char) :
    (pyRstrip l).getLast? = (l.reverse.dropWhile isPySpace).head? := by
  rw [pyRstrip_eq]
  exact List.getLast?_reverse _

theorem rfindBrace_none (l : List Char) (h : rfindBrace l = none) :
    ∀ i, l.get? i ≠ some '}' := by
  induction l with
  | nil => intro i; simp
  | cons c rest ih =>
    intro i
    simp only [rfindBrace] at h
    cases hr : rfindBrace rest with
    | some n => rw [hr] at h; simp at h
    | none =>
      rw [hr] at h
      have hc : ¬c = '}' := by
        by_cases hcc : c = '}'
        · simp [hcc] at h
        · exact hcc
      cases i with
      | zero => simpa using hc
      | succ j => simpa using ih hr j

/-- `content.rfind` finds the position of the last closing brace. -/
theorem rfindBrace_spec (l : List Char) (p : Nat) (h : rfindBrace l = some p) :
    l.get? p = some '}' ∧ ∀ q, p < q → l.get? q ≠ some '}' := by
  induction l generalizing p with
  | nil => simp [rfindBrace] at h
  | cons c rest ih =>
    simp only [rfindBrace] at h
    cases hr : rfindBrace rest with
    | some n =>
      rw [hr] at h
      simp only [Option.some.injEq] at h
      subst h
      obtain ⟨h1, h2⟩ := ih n hr
      constructor
      · simpa using h1
      · intro q hq
        cases q with
        | zero => omega
        | succ j =>
          simpa using h2 j (by omega)
    | none =>
      rw [hr] at h
      have hc : c = '}' ∧ p = 0 := by
        by_cases hcc : c = '}'
        · simp [hcc] at h
          exact ⟨hcc, h.symm⟩
        · simp [hcc] at h
      obtain ⟨hc1, hc2⟩ := hc
      subst hc1; subst hc2
      constructor
      · simp
      · intro q hq
        cases q with
        | zero => omega
        | succ j => simpa using rfindBrace_none rest hr j

/-- Claim C6: when inserting the module definition before the document's
last closing brace, a leading comma is prepended exactly when the text
before that brace, with trailing whitespace trimmed, does not already end
in a comma (equivalently, when the last non-whitespace character before
the brace is not a comma). -/
theorem claim_C6_comma_insertion (c : List Char) (p : Nat)
    (hp : rfindBrace c = some p) :
    (c.get? p = some '}' ∧ ∀ q, p < q → c.get? q ≠ some '}') ∧
    insertDefinition c =
      .ok (c.take p ++
        (if ((c.take p).reverse.dropWhile isPySpace).head? = some ','
         then vpnModuleText else ',' :: vpnModuleText) ++ '\n' :: c.drop p) := by
  refine ⟨rfindBrace_spec c p hp, ?_⟩
  simp only [insertDefinition, hp, pyRstrip_getLast]
  by_cases hcond : ((c.take p).reverse.dropWhile isPySpace).head? = some ','
  · simp [hcond]
  · simp only [hcond, if_neg]
    have : (((c.take p).reverse.dropWhile isPySpace).head? == some ',') = false := by
      simpa using hcond
    simp [this, hcond]

theorem claim_C6_comma_insertion_witness :
    rfindBrace c6input = some 7 ∧
    ((c6input.get? 7 = some '}' ∧ ∀ q, 7 < q → c6input.get? q ≠ some '}') ∧
     insertDefinition c6input =
       .ok (c6input.take 7 ++
         (if ((c6input.take 7).reverse.dropWhile isPySpace).head? = some ','
          then vpnModuleText else ',' :: vpnModuleText) ++ '\n' :: c6input.drop 7)) :=
  ⟨by decide, claim_C6_comma_insertion c6input 7 (by decide)⟩

/-! ## No-op behaviour and backups of the three operations (claims C8, C7, C4) -/

theorem dictGet_key_present (kvs : List (String × Json)) (k : String) (v : Json)
    (h : dictGet kvs k = some v) : kvs.any (fun kv => kv.1 == k) = true := by
  simp only [dictGet, Option.map_eq_some'] at h
  obtain ⟨a, ha, _⟩ := h
  have hmem := List.mem_of_find?_eq_some ha
  have hpred := List.find?_some ha
  rw [List.any_eq_true]
  exact ⟨a, by simpa using hmem, hpred⟩

theorem mem_any_pyEqStr (l : List Json) (s : String) (h : Json.str s ∈ l) :
    l.any (pyEqStr s) = true := by
  rw [List.any_eq_true]
  exact ⟨Json.str s, h, by simp [pyEqStr]⟩

theorem modify_config_noop (fs : FS) (content : String)
    (kvs : List (String × Json)) (l : List Json)
    (hconf : fs.config = some content)
    (hparse : parse_jsonc content = some (Json.obj kvs))
    (hmr : dictGet kvs "modules-right" = some (Json.arr l))
    (hmem : Json.str "custom/vpn" ∈ l)
    (hdef : kvs.any (fun kv => kv.1 == "custom/vpn") = true) :
    modify_config_jsonc fs = .ok (false, fs) := by
  have hkey : kvs.any (fun kv => kv.1 == "modules-right") = true :=
    dictGet_key_present kvs "modules-right" (Json.arr l) hmr
  have hany : l.any (pyEqStr "custom/vpn") = true :=
    mem_any_pyEqStr l "custom/vpn" hmem
  simp [modify_config_jsonc, hconf, hparse, pythonIn, hkey, hmr, hany, hdef]

theorem modify_style_noop (fs : FS) (content : String)
    (hstyle : fs.style = some content)
    (hsub : containsSub "#custom-vpn".data content.data = true) :
    modify_style_css fs = .ok (false, fs) := by
  simp [modify_style_css, hstyle, hsub]

theorem create_script_noop (fs : FS)
    (hscript : fs.script = some get_vpn_script_content) :
    create_vpn_script fs = (false, fs) := by
  simp [create_vpn_script, hscript]

/-- Claim C8: when a file's idempotency conditions already hold — for the
config, `custom/vpn` in the modules-right list and as a top-level key; for
the stylesheet, the selector substring present; for the script, byte-equal
content — the operation reports no change and leaves the state untouched
(no write, no backup). -/
theorem claim_C8_configured_noop :
    (∀ (fs : FS) (content : String) (kvs : List (String × Json)) (l : List Json),
        fs.config = some content →
        parse_jsonc content = some (Json.obj kvs) →
        dictGet kvs "modules-right" = some (Json.arr l) →
        Json.str "custom/vpn" ∈ l →
        kvs.any (fun kv => kv.1 == "custom/vpn") = true →
        modify_config_jsonc fs = .ok (false, fs)) ∧
    (∀ (fs : FS) (content : String), fs.style = some content →
        containsSub "#custom-vpn".data content.data = true →
        modify_style_css fs = .ok (false, fs)) ∧
    (∀ fs : FS, fs.script = some get_vpn_script_content →
        create_vpn_script fs = (false, fs)) :=
  ⟨fun fs content kvs l hconf hparse hmr hmem hdef =>
      modify_config_noop fs content kvs l hconf hparse hmr hmem hdef,
   fun fs content hstyle hsub => modify_style_noop fs content hstyle hsub,
   fun fs hscript => create_script_noop fs hscript⟩

theorem claim_C8_configured_noop_witness :
    modify_config_jsonc fsC8 = .ok (false, fsC8) ∧
    modify_style_css fsC8 = .ok (false, fsC8) ∧
    create_vpn_script fsC8 = (false, fsC8) :=
  ⟨claim_C8_configured_noop.1 fsC8 cfgC8
      [("modules-right", Json.arr [Json.str "custom/vpn"]),
       ("custom/vpn", Json.num "1")]
      [Json.str "custom/vpn"] rfl rfl rfl (List.Mem.head _) rfl,
   claim_C8_configured_noop.2.1 fsC8 "#custom-vpn \x7b color: red \x7d" rfl rfl,
   claim_C8_configured_noop.2.2 fsC8 rfl⟩

/-- Counterexample to claim C7 as stated: the script-materialization
operation decides a change is needed (the existing file differs from the
template), writes the new content, and yet creates no backup. -/
theorem claim_C7_counterexample :
    fsC7.script = some "old" ∧
    ("old" : String) ≠ get_vpn_script_content ∧
    (create_vpn_script fsC7).1 = true ∧
    ((create_vpn_script fsC7).2).script = some get_vpn_script_content ∧
    ((create_vpn_script fsC7).2).scriptBak = none :=
  ⟨rfl, by decide, rfl, rfl, rfl⟩

/-- Claim C7 (amended): the config and stylesheet operations back up the
file's prior content before writing whenever they decide a change is
needed; the script operation never creates a backup. -/
theorem claim_C7_amended_backups :
    (∀ (fs fs' : FS) (content : String), fs.config = some content →
        modify_config_jsonc fs = .ok (true, fs') →
        fs'.configBak = some content) ∧
    (∀ (fs fs' : FS) (content : String), fs.style = some content →
        modify_style_css fs = .ok (true, fs') →
        fs'.styleBak = some content) ∧
    (∀ fs : FS, ((create_vpn_script fs).2).scriptBak = fs.scriptBak) := by
  refine ⟨?_, ?_, ?_⟩
  · intro fs fs' content hconf h
    simp only [modify_config_jsonc, hconf] at h
    repeat' split at h
    all_goals
      first
        | (simp only [Except.ok.injEq, Prod.mk.injEq, eq_self_iff_true,
             true_and] at h
           subst h
           rfl)
        | simp at h
  · intro fs fs' content hstyle h
    simp only [modify_style_css, hstyle] at h
    split at h
    · simp at h
    · simp only [Except.ok.injEq, Prod.mk.injEq, eq_self_iff_true,
        true_and] at h
      subst h
      rfl
  · intro fs
    rcases hs : fs.script with _ | existing
    · simp [create_vpn_script, hs]
    · by_cases he : existing = get_vpn_script_content
      · simp [create_vpn_script, hs, he]
      · simp [create_vpn_script, hs, he]

theorem claim_C7_amended_backups_witness :
    fsC7wConfigRes.configBak = some cfgC7w ∧
    fsC7wStyleRes.styleBak = some "body" ∧
    ((create_vpn_script fsC7w).2).scriptBak = fsC7w.scriptBak :=
  ⟨claim_C7_amended_backups.1 fsC7w fsC7wConfigRes cfgC7w rfl rfl,
   claim_C7_amended_backups.2.1 fsC7w fsC7wStyleRes "body" rfl rfl,
   claim_C7_amended_backups.2.2 fsC7w⟩

/-- Counterexample to claim C4 as stated: a config whose `modules-right`
value is a string (not a list) does not trigger `MissingFieldError` — the
Python `in` test degrades to a substring check, both idempotency conditions
pass, and the operation reports "already configured" successfully. -/
theorem claim_C4_counterexample :
    parse_jsonc cfgC4
      = some (Json.obj [("modules-right", Json.str "xcustom/vpnx"),
                        ("custom/vpn", Json.num "1")]) ∧
    modify_config_jsonc fsC4 = .ok (false, fsC4) :=
  ⟨rfl, rfl⟩

/-- Claim C4 (amended): the config operation fails fatally with
`MissingFileError` when the file is absent and with `MissingFieldError`
when the decoded content lacks the `modules-right` key; no list-shape check
is performed on the value — a string value undergoes a substring membership
test and can pass the idempotency check without any error. -/
theorem claim_C4_amended_errors :
    (∀ fs : FS, fs.config = none →
        modify_config_jsonc fs = .error (.missingFile, fs)) ∧
    (∀ (fs : FS) (content : String) (cfg : Json), fs.config = some content →
        parse_jsonc content = some cfg →
        pythonIn "modules-right" cfg = some false →
        modify_config_jsonc fs = .error (.missingField, fs)) ∧
    (∀ (fs : FS) (content : String) (kvs : List (String × Json)) (s : String),
        fs.config = some content →
        parse_jsonc content = some (Json.obj kvs) →
        dictGet kvs "modules-right" = some (Json.str s) →
        containsSub "custom/vpn".data s.data = true →
        kvs.any (fun kv => kv.1 == "custom/vpn") = true →
        modify_config_jsonc fs = .ok (false, fs)) := by
  refine ⟨?_, ?_, ?_⟩
  · intro fs h
    simp [modify_config_jsonc, h]
  · intro fs content cfg hconf hparse hmem
    simp [modify_config_jsonc, hconf, hparse, hmem]
  · intro fs content kvs s hconf hparse hmr hsub hdef
    have hkey : kvs.any (fun kv => kv.1 == "modules-right") = true :=
      dictGet_key_present kvs "modules-right" (Json.str s) hmr
    simp [modify_config_jsonc, hconf, hparse, pythonIn, hkey, hmr, hsub, hdef]

theorem claim_C4_amended_errors_witness :
    modify_config_jsonc fsMissing = .error (.missingFile, fsMissing) ∧
    modify_config_jsonc fsNoKey = .error (.missingField, fsNoKey) ∧
    modify_config_jsonc fsC4 = .ok (false, fsC4) :=
  ⟨claim_C4_amended_errors.1 fsMissing rfl,
   claim_C4_amended_errors.2.1 fsNoKey "\x7b\"a\": 1\x7d"
     (Json.obj [("a", Json.num "1")]) rfl rfl rfl,
   claim_C4_amended_errors.2.2 fsC4 cfgC4
     [("modules-right", Json.str "xcustom/vpnx"), ("custom/vpn", Json.num "1")]
     "xcustom/vpnx" rfl rfl rfl rfl rfl⟩

/-! ## Anchor search for the module registration (claim C3) -/

theorem isPrefixOf_eq_true_iff (l1 l2 : List Char) :
    l1.isPrefixOf l2 = true ↔ ∃ t, l2 = l1 ++ t := by
  induction l1 generalizing l2 with
  | nil => simp [List.isPrefixOf]
  | cons a l1x ih =>
    cases l2 with
    | nil => simp [List.isPrefixOf]
    | cons b l2x =>
      simp only [List.isPrefixOf, Bool.and_eq_true, beq_iff_eq]
      constructor
      · rintro ⟨hab, h⟩
        obtain ⟨t, ht⟩ := (ih l2x).mp h
        subst hab
        exact ⟨t, by simp [ht]⟩
      · rintro ⟨t, ht⟩
        injection ht with h1 h2
        exact ⟨h1.symm, (ih l2x).mpr ⟨t, h2⟩⟩

theorem dropWhile_head_false (p : Char → Bool) (l : List Char) (d : Char)
    (t : List Char) (h : l.dropWhile p = d :: t) : p d = false := by
  induction l with
  | nil => simp at h
  | cons a r ih =>
    rw [List.dropWhile_cons] at h
    by_cases hp : p a
    · rw [if_pos hp] at h; exact ih h
    · rw [if_neg hp] at h
      injection h with h1 _
      subst h1
      simpa using hp

theorem all_takeWhile (p : Char → Bool) (l : List Char) :
    (l.takeWhile p).all p = true := by
  induction l with
  | nil => rfl
  | cons a r ih =>
    rw [List.takeWhile_cons]
    by_cases hp : p a
    · simp [hp, ih]
    · simp [hp]

theorem drop_takeWhile_length (p : Char → Bool) (l : List Char) :
    l.drop (l.takeWhile p).length = l.dropWhile p := by
  induction l with
  | nil => rfl
  | cons a r ih =>
    rw [List.takeWhile_cons, List.dropWhile_cons]
    by_cases hp : p a
    · simp [hp, ih]
    · simp [hp]

theorem takeWhile_ws_append (p : Char → Bool) (ws rest : List Char)
    (hws : ws.all p = true) (hrest : ∀ d, rest.head? = some d → p d = false) :
    (ws ++ rest).takeWhile p = ws ∧ (ws ++ rest).dropWhile p = rest := by
  induction ws with
  | nil =>
    cases rest with
    | nil => simp
    | cons d t =>
      have hd := hrest d rfl
      simp [List.takeWhile_cons, List.dropWhile_cons, hd]
  | cons a wt ih =>
    simp only [List.all_cons, Bool.and_eq_true] at hws
    have h2 := ih hws.2
    simp [List.takeWhile_cons, List.dropWhile_cons, hws.1, h2.1, h2.2]

/-- Characterization of a regex match of `"group/tray-expander"\s*,` at the
head of the input. -/
theorem trayMatchLen_iff (l : List Char) (n : Nat) :
    trayMatchLen l = some n ↔
      ∃ ws rest, ws.all isPySpace = true ∧ l = trayLit ++ (ws ++ ',' :: rest) ∧
        n = trayLit.length + ws.length + 1 := by
  constructor
  · intro h
    simp only [trayMatchLen] at h
    split at h
    · rename_i hpre
      obtain ⟨t, ht⟩ := (isPrefixOf_eq_true_iff _ _).mp hpre
      subst ht
      rw [List.drop_left, drop_takeWhile_length] at h
      cases hdw : t.dropWhile isPySpace with
      | nil => rw [hdw] at h; simp at h
      | cons d rest1 =>
        rw [hdw] at h
        by_cases hd : d = ','
        · subst hd
          simp at h
          refine ⟨t.takeWhile isPySpace, rest1, all_takeWhile _ _, ?_, by omega⟩
          have hts : t = t.takeWhile isPySpace ++ (',' :: rest1) := by
            conv_lhs => rw [← List.takeWhile_append_dropWhile isPySpace t]
            rw [hdw]
          conv_lhs => rw [hts]
        · simp [hd] at h
    · simp at h
  · rintro ⟨ws, rest, hws, hl, hn⟩
    subst hl
    have hpre : trayLit.isPrefixOf (trayLit ++ (ws ++ ',' :: rest)) = true :=
      (isPrefixOf_eq_true_iff _ _).mpr ⟨_, rfl⟩
    have hsplit := takeWhile_ws_append isPySpace ws (',' :: rest) hws
      (by intro d hd; injection hd with hd; subst hd; decide)
    simp only [trayMatchLen, hpre, List.drop_left,
      drop_takeWhile_length, hsplit.1, hsplit.2]
    simp [hn]

/-- Characterization of a regex match of `"modules-right"\s*:\s*\[\s*` at
the head of the input. -/
theorem mrMatchLen_iff (l : List Char) (n : Nat) :
    mrMatchLen l = some n ↔
      ∃ w1 w2 w3 rest, w1.all isPySpace = true ∧ w2.all isPySpace = true ∧
        w3.all isPySpace = true ∧
        (∀ d, rest.head? = some d → isPySpace d = false) ∧
        l = mrLit ++ (w1 ++ ':' :: (w2 ++ '[' :: (w3 ++ rest))) ∧
        n = mrLit.length + w1.length + 1 + w2.length + 1 + w3.length := by
  constructor
  · intro h
    simp only [mrMatchLen] at h
    split at h
    · rename_i hpre
      obtain ⟨t, ht⟩ := (isPrefixOf_eq_true_iff _ _).mp hpre
      subst ht
      rw [List.drop_left, drop_takeWhile_length] at h
      cases hdw : t.dropWhile isPySpace with
      | nil => rw [hdw] at h; simp at h
      | cons d r2 =>
        rw [hdw] at h
        by_cases hd : d = ':'
        · subst hd
          simp only [drop_takeWhile_length] at h
          simp at h
          cases hdw2 : r2.dropWhile isPySpace with
          | nil => rw [hdw2] at h; simp at h
          | cons d2 r3 =>
            rw [hdw2] at h
            by_cases hd2 : d2 = '['
            · subst hd2
              simp at h
              refine ⟨t.takeWhile isPySpace, r2.takeWhile isPySpace,
                r3.takeWhile isPySpace, r3.dropWhile isPySpace,
                all_takeWhile _ _, all_takeWhile _ _, all_takeWhile _ _,
                ?_, ?_, ?_⟩
              · intro d hdh
                cases hdr3 : r3.dropWhile isPySpace with
                | nil => rw [hdr3] at hdh; simp at hdh
                | cons x xs =>
                  rw [hdr3] at hdh
                  injection hdh with hx
                  subst hx
                  exact dropWhile_head_false isPySpace r3 x xs hdr3
              · have h1s : t = t.takeWhile isPySpace ++ (':' :: r2) := by
                  conv_lhs => rw [← List.takeWhile_append_dropWhile isPySpace t]
                  rw [hdw]
                have h2s : r2 = r2.takeWhile isPySpace ++ ('[' :: r3) := by
                  conv_lhs => rw [← List.takeWhile_append_dropWhile isPySpace r2]
                  rw [hdw2]
                have h3s : r3 = r3.takeWhile isPySpace ++ r3.dropWhile isPySpace :=
                  (List.takeWhile_append_dropWhile isPySpace r3).symm
                conv_lhs => rw [h1s]
                conv_lhs => rw [h2s]
                conv_lhs => rw [h3s]
              · omega
            · simp [hd2] at h
        · simp [hd] at h
    · simp at h
  · rintro ⟨w1, w2, w3, rest, h1, h2, h3, h4, hl, hn⟩
    subst hl
    have hpre : mrLit.isPrefixOf
        (mrLit ++ (w1 ++ ':' :: (w2 ++ '[' :: (w3 ++ rest)))) = true :=
      (isPrefixOf_eq_true_iff _ _).mpr ⟨_, rfl⟩
    have hs3 := takeWhile_ws_append isPySpace w3 rest h3 h4
    have hs2 := takeWhile_ws_append isPySpace w2 ('[' :: (w3 ++ rest)) h2
      (by intro d hd; injection hd with hd; subst hd; decide)
    have hs1 := takeWhile_ws_append isPySpace w1
      (':' :: (w2 ++ '[' :: (w3 ++ rest))) h1
      (by intro d hd; injection hd with hd; subst hd; decide)
    simp only [mrMatchLen, hpre, List.drop_left,
      drop_takeWhile_length, hs1.1, hs1.2, hs2.1, hs2.2, hs3.1, hs3.2]
    simp
    omega

/-- `re.search` semantics of `findLeft`: a successful search returns the
end position of the match at the least matching start position. -/
theorem findLeft_eq_some (f : List Char → Option Nat) (l : List Char) (e : Nat) :
    findLeft f l = some e ↔
      ∃ i n, f (l.drop i) = some n ∧ e = i + n ∧
        ∀ j, j < i → f (l.drop j) = none := by
  induction l generalizing e with
  | nil =>
    simp only [findLeft]
    constructor
    · intro h
      refine ⟨0, e, by simpa using h, by omega, ?_⟩
      intro j hj
      exact absurd hj (Nat.not_lt_zero j)
    · rintro ⟨i, n, hf, he, hnone⟩
      rcases Nat.eq_zero_or_pos i with hi | hi
      · subst hi
        simpa [he] using hf
      · have := hnone 0 hi
        simp only [List.drop_nil] at this hf
        rw [this] at hf
        simp at hf
  | cons c rest ih =>
    simp only [findLeft]
    cases hf0 : f (c :: rest) with
    | some n =>
      constructor
      · intro h
        simp only [Option.some.injEq] at h
        subst h
        refine ⟨0, n, by simpa using hf0, by omega, ?_⟩
        intro j hj
        exact absurd hj (Nat.not_lt_zero j)
      · rintro ⟨i, m, hf, he, hnone⟩
        rcases Nat.eq_zero_or_pos i with hi | hi
        · subst hi
          simp only [List.drop_zero] at hf
          rw [hf0] at hf
          injection hf with hf
          subst hf
          simpa using he.symm
        · have := hnone 0 hi
          simp only [List.drop_zero] at this
          rw [hf0] at this
          simp at this
    | none =>
      rw [Option.map_eq_some']
      constructor
      · rintro ⟨e1, he1, he⟩
        obtain ⟨i, n, hfi, hei, hnone⟩ := (ih e1).mp he1
        refine ⟨i + 1, n, by simpa using hfi, by omega, ?_⟩
        intro j hj
        cases j with
        | zero => simpa using hf0
        | succ j2 => simpa using hnone j2 (by omega)
      · rintro ⟨i, n, hfi, hei, hnone⟩
        cases i with
        | zero =>
          simp only [List.drop_zero] at hfi
          rw [hf0] at hfi
          simp at hfi
        | succ i2 =>
          refine ⟨i2 + n, ?_, by omega⟩
          refine (ih (i2 + n)).mpr ⟨i2, n, by simpa using hfi, rfl, ?_⟩
          intro j hj
          simpa using hnone (j + 1) (by omega)

theorem findLeft_eq_none (f : List Char → Option Nat) (l : List Char) :
    findLeft f l = none ↔ ∀ j, f (l.drop j) = none := by
  induction l with
  | nil =>
    simp only [findLeft]
    constructor
    · intro h j
      simpa using h
    · intro h
      simpa using h 0
  | cons c rest ih =>
    simp only [findLeft]
    cases hf0 : f (c :: rest) with
    | some n =>
      constructor
      · intro h; simp at h
      · intro h
        have := h 0
        simp only [List.drop_zero] at this
        rw [hf0] at this
        simp at this
    | none =>
      simp only [Option.map_eq_none']
      rw [ih]
      constructor
      · intro h j
        cases j with
        | zero => simpa using hf0
        | succ j2 => simpa using h j2
      · intro h j
        simpa using h (j + 1)

theorem trayAt_iff (c : List Char) (i e : Nat) :
    trayAt c i e ↔ ∃ n, trayMatchLen (c.drop i) = some n ∧ e = i + n := by
  constructor
  · rintro ⟨ws, rest, h1, h2, h3⟩
    exact ⟨trayLit.length + ws.length + 1,
      (trayMatchLen_iff _ _).mpr ⟨ws, rest, h1, h2, rfl⟩, by omega⟩
  · rintro ⟨n, hm, he⟩
    obtain ⟨ws, rest, h1, h2, h3⟩ := (trayMatchLen_iff _ _).mp hm
    exact ⟨ws, rest, h1, h2, by omega⟩

theorem mrAt_iff (c : List Char) (i e : Nat) :
    mrAt c i e ↔ ∃ n, mrMatchLen (c.drop i) = some n ∧ e = i + n := by
  constructor
  · rintro ⟨w1, w2, w3, rest, h1, h2, h3, h4, h5, h6⟩
    exact ⟨mrLit.length + w1.length + 1 + w2.length + 1 + w3.length,
      (mrMatchLen_iff _ _).mpr ⟨w1, w2, w3, rest, h1, h2, h3, h4, h5, rfl⟩,
      by omega⟩
  · rintro ⟨n, hm, he⟩
    obtain ⟨w1, w2, w3, rest, h1, h2, h3, h4, h5, h6⟩ := (mrMatchLen_iff _ _).mp hm
    exact ⟨w1, w2, w3, rest, h1, h2, h3, h4, h5, by omega⟩

/-- Claim C3 (amended): when the modules-right idempotency condition fails,
the registration inserts the new-line text `\n    "custom/vpn",` right
after the comma of the leftmost occurrence of the literal
`"group/tray-expander"` followed by optional whitespace and a comma; if no
such occurrence exists, it inserts `"custom/vpn",\n    ` after the opening
bracket of the modules-right array together with any whitespace directly
following the bracket; if neither anchor exists it fails fatally with
`AnchorNotFoundError`. -/
theorem claim_C3_anchor_tiering (c : List Char) :
    (∃ i e, trayAt c i e ∧ (∀ j e2, j < i → ¬trayAt c j e2) ∧
        insertModule c = .ok (c.take e ++ moduleInsertion1 ++ c.drop e)) ∨
    ((∀ i e, ¬trayAt c i e) ∧
      ∃ i e, mrAt c i e ∧ (∀ j e2, j < i → ¬mrAt c j e2) ∧
        insertModule c = .ok (c.take e ++ moduleInsertion2 ++ c.drop e)) ∨
    ((∀ i e, ¬trayAt c i e) ∧ (∀ i e, ¬mrAt c i e) ∧
        insertModule c = .error .anchorNotFound) := by
  cases ht : findLeft trayMatchLen c with
  | some e =>
    left
    obtain ⟨i, n, hf, he, hnone⟩ := (findLeft_eq_some _ _ _).mp ht
    refine ⟨i, e, (trayAt_iff c i e).mpr ⟨n, hf, he⟩, ?_, ?_⟩
    · intro j e2 hj hta
      obtain ⟨n2, hm2, _⟩ := (trayAt_iff c j e2).mp hta
      rw [hnone j hj] at hm2
      exact absurd hm2 (by simp)
    · simp [insertModule, ht]
  | none =>
    have htnone : ∀ i e, ¬trayAt c i e := by
      intro i e hta
      obtain ⟨n2, hm2, _⟩ := (trayAt_iff c i e).mp hta
      rw [(findLeft_eq_none _ _).mp ht i] at hm2
      exact absurd hm2 (by simp)
    cases hm : findLeft mrMatchLen c with
    | some e =>
      right; left
      obtain ⟨i, n, hf, he, hnone⟩ := (findLeft_eq_some _ _ _).mp hm
      refine ⟨htnone, i, e, (mrAt_iff c i e).mpr ⟨n, hf, he⟩, ?_, ?_⟩
      · intro j e2 hj hma
        obtain ⟨n2, hm2, _⟩ := (mrAt_iff c j e2).mp hma
        rw [hnone j hj] at hm2
        exact absurd hm2 (by simp)
      · simp [insertModule, ht, hm]
    | none =>
      right; right
      refine ⟨htnone, ?_, by simp [insertModule, ht, hm]⟩
      intro i e hma
      obtain ⟨n2, hm2, _⟩ := (mrAt_iff c i e).mp hma
      rw [(findLeft_eq_none _ _).mp hm i] at hm2
      exact absurd hm2 (by simp)

/-- Counterexample to claim C3 as stated: with whitespace between the
tray-expander literal and the comma (input A), the claim's tight reading
predicts the fallback insertion immediately after the array's opening
bracket, but the code still uses the tray anchor; with whitespace after
the opening bracket (input B), the claim predicts insertion immediately
after the bracket, but the code inserts after the whitespace. In both
cases the output does not begin with the bracket-insertion prefix the
claim predicts. -/
theorem claim_C3_counterexample :
    insertModule inputA = .ok outputA ∧
    claimedBracketPrefix.isPrefixOf outputA = false ∧
    insertModule inputB = .ok outputB ∧
    claimedBracketPrefix.isPrefixOf outputB = false :=
  ⟨rfl, by decide, rfl, by decide⟩

/-! ## Idempotence of the full run (claim C2) -/

theorem containsSub_append_right (needle a b : List Char)
    (h : containsSub needle b = true) : containsSub needle (a ++ b) = true := by
  induction a with
  | nil => simpa using h
  | cons c rest ih =>
    simp only [List.cons_append, containsSub, List.append_eq, ih, Bool.or_true]

theorem style_result (fs fs' : FS) (bl : Bool)
    (h : modify_style_css fs = .ok (bl, fs')) :
    ∃ ct : String, fs'.style = some ct ∧
      containsSub "#custom-vpn".data ct.data = true := by
  cases hs : fs.style with
  | none => simp [modify_style_css, hs] at h
  | some content =>
    simp only [modify_style_css, hs] at h
    split at h
    · rename_i hsub
      simp only [Except.ok.injEq, Prod.mk.injEq] at h
      obtain ⟨-, h2⟩ := h
      subst h2
      exact ⟨content, hs, hsub⟩
    · simp only [Except.ok.injEq, Prod.mk.injEq] at h
      obtain ⟨-, h2⟩ := h
      subst h2
      refine ⟨content ++ css_block, rfl, ?_⟩
      have hcss : containsSub "#custom-vpn".data css_block.data = true := by
        decide
      have happ := containsSub_append_right "#custom-vpn".data content.data
        css_block.data hcss
      simpa [String.data_append] using happ

theorem create_script_result (fs : FS) :
    ((create_vpn_script fs).2).script = some get_vpn_script_content ∧
    ((create_vpn_script fs).2).style = fs.style := by
  cases hs : fs.script with
  | none => simp [create_vpn_script, hs]
  | some existing =>
    by_cases he : existing = get_vpn_script_content
    · subst he; simp [create_vpn_script, hs]
    · simp [create_vpn_script, hs, he]

/-- Claim C2 (amended): if the first full run succeeds and the config text
it leaves behind re-parses with `custom/vpn` both in the modules-right
list and as a top-level key, then the second run reports no changes for
all three operations and returns the state unchanged — identical file
contents and no additional backups. -/
theorem claim_C2_second_run_noop (fs0 fs1 : FS) (a b c : Bool)
    (h : main fs0 = .ok (a, b, c, fs1))
    (content : String) (kvs : List (String × Json)) (l : List Json)
    (hc : fs1.config = some content)
    (hp : parse_jsonc content = some (Json.obj kvs))
    (hm : dictGet kvs "modules-right" = some (Json.arr l))
    (hv : Json.str "custom/vpn" ∈ l)
    (hd : kvs.any (fun kv => kv.1 == "custom/vpn") = true) :
    main fs1 = .ok (false, false, false, fs1) := by
  cases hcfg : modify_config_jsonc fs0 with
  | error e => simp [main, hcfg] at h
  | ok p =>
    obtain ⟨c0, fsA⟩ := p
    cases hsty : modify_style_css fsA with
    | error e => simp [main, hcfg, hsty] at h
    | ok q =>
      obtain ⟨s0, fsB⟩ := q
      simp only [main, hcfg, hsty, Except.ok.injEq, Prod.mk.injEq] at h
      obtain ⟨-, -, -, h4⟩ := h
      obtain ⟨hscript, hstyleEq⟩ := create_script_result fsB
      rw [h4] at hscript hstyleEq
      obtain ⟨ct, hstyB, hsubB⟩ := style_result fsA fsB s0 hsty
      have hstyle1 : fs1.style = some ct := by rw [hstyleEq, hstyB]
      have h1 := modify_config_noop fs1 content kvs l hc hp hm hv hd
      have h2 := modify_style_noop fs1 ct hstyle1 hsubB
      have h3 := create_script_noop fs1 hscript
      simp [main, h1, h2, h3]

theorem claim_C2_second_run_noop_witness :
    main fsC2w1 = .ok (false, false, false, fsC2w1) :=
  claim_C2_second_run_noop fsC2w fsC2w1 true true true rfl cfgC2w1 kvsC2 mrC2
    rfl rfl rfl (List.Mem.tail _ (List.Mem.head _)) rfl

/-- Counterexample to claim C2 as stated: on `fsC2cex` the first run
succeeds and modifies all three files, but the second run fails with a
decode error instead of reporting no changes — the tray-expander anchor
matched inside a comment, so the first insertion landed outside the
modules-right array and the rewritten config no longer parses. -/
theorem claim_C2_counterexample :
    (main fsC2cex).map (fun r => (r.1, r.2.1, r.2.2.1)) = .ok (true, true, true) ∧
    ((main fsC2cex).bind (fun r => main r.2.2.2)).mapError (fun e => e.1)
      = .error PErr.malformed :=
  ⟨rfl, rfl⟩

/-! ## Round-trip of normalization on strict JSON (claim C1) -/

theorem numChar_props (c : Char) (h : numChar c = true) :
    ¬c = '"' ∧ ¬c = '/' ∧ ¬isPySpace c = true ∧ ¬c = '}' ∧ ¬c = ']' ∧
      ¬c = ',' ∧ ¬c = '\\' := by
  simp only [numChar, Bool.or_eq_true, decide_eq_true_eq] at h
  rcases h with ((((h | h) | h) | h) | h) | h
  · simp only [Char.isDigit, ge_iff_le, Bool.and_eq_true, decide_eq_true_eq] at h
    have h1 : 48 ≤ c.toNat := by exact_mod_cast h.1
    have h2 : c.toNat ≤ 57 := by exact_mod_cast h.2
    refine ⟨?_, ?_, ?_, ?_, ?_, ?_, ?_⟩
    · intro hc; rw [hc] at h1; exact absurd h1 (by decide)
    · intro hc; rw [hc] at h1; exact absurd h1 (by decide)
    · intro hc
      simp only [isPySpace, Bool.or_eq_true, Bool.and_eq_true,
        decide_eq_true_eq] at hc
      omega
    · intro hc; rw [hc] at h2; exact absurd h2 (by decide)
    · intro hc; rw [hc] at h2; exact absurd h2 (by decide)
    · intro hc; rw [hc] at h1; exact absurd h1 (by decide)
    · intro hc; rw [hc] at h2; exact absurd h2 (by decide)
  all_goals subst h
  all_goals exact ⟨by decide, by decide, by decide, by decide, by decide,
    by decide, by decide⟩

theorem hexDigit_props (n : Nat) (hn : n ≤ 15) :
    ¬hexDigit n = '"' ∧ ¬hexDigit n = '\\' := by
  interval_cases n <;> exact ⟨by decide, by decide⟩

theorem stringBodyOk_append (a b : List Char) (ha : stringBodyOk a = true)
    (hb : stringBodyOk b = true) : stringBodyOk (a ++ b) = true := by
  induction a using stringBodyOk.induct with
  | case1 => simpa using hb
  | case2 => rw [stringBodyOk.eq_def] at ha; simp at ha
  | case3 d rest2 ih =>
    rw [stringBodyOk.eq_def] at ha
    simp at ha
    simp only [List.cons_append]
    rw [stringBodyOk.eq_def]
    simpa using ih ha
  | case4 c rest2 hc ih =>
    rw [stringBodyOk.eq_def] at ha
    simp [hc] at ha
    simp only [List.cons_append]
    rw [stringBodyOk.eq_def]
    simp [hc, ha.1, ih ha.2]

theorem stringBodyOk_escChar (c : Char) : stringBodyOk (escChar c) = true := by
  unfold escChar
  split
  · decide
  · split
    · decide
    · split
      · decide
      · split
        · decide
        · split
          · decide
          · split
            · decide
            · split
              · decide
              · split
                · rename_i hlt
                  have hd1 := hexDigit_props (c.toNat / 16) (by omega)
                  have hd2 := hexDigit_props (c.toNat % 16) (by omega)
                  simp [stringBodyOk, hd1.1, hd1.2, hd2.1, hd2.2]
                · rename_i hq hbs h3 h4 h5 h6 h7 h8
                  simp [stringBodyOk, hq, hbs]

theorem stringBodyOk_escString (l : List Char) :
    stringBodyOk (escString l) = true := by
  induction l with
  | nil => rfl
  | cons c rest ih =>
    exact stringBodyOk_append _ _ (stringBodyOk_escChar c) ih

theorem commaOkAt_of_headOk (l : List Char) (h : headOkSer l = true) :
    commaOkAt l = true := by
  cases l with
  | nil => rfl
  | cons c rest =>
    simp only [headOkSer, List.head?_cons, Bool.and_eq_true,
      Bool.not_eq_true'] at h
    simp only [commaOkAt, List.dropWhile_cons, h.1.1, Bool.false_eq_true,
      if_false]
    simp [h.1.2, h.2]

theorem commaOkAt_append_head (r b : List Char) (h : commaOkAt r = true)
    (hb : headOkSer b = true) : commaOkAt (r ++ b) = true := by
  cases hdw : r.dropWhile isPySpace with
  | nil =>
    have hrw : (r ++ b).dropWhile isPySpace = b.dropWhile isPySpace := by
      rw [List.dropWhile_append, hdw]
      simp
    rw [commaOkAt, hrw]
    have hc := commaOkAt_of_headOk b hb
    rw [commaOkAt] at hc
    exact hc
  | cons x xs =>
    have hrw : (r ++ b).dropWhile isPySpace = x :: (xs ++ b) := by
      rw [List.dropWhile_append, hdw]
      simp
    rw [commaOkAt, hrw]
    rw [commaOkAt, hdw] at h
    exact h

theorem commaOkAt_append_left (r b : List Char)
    (hne : ¬r.dropWhile isPySpace = []) (h : commaOkAt r = true) :
    commaOkAt (r ++ b) = true := by
  cases hdw : r.dropWhile isPySpace with
  | nil => exact absurd hdw hne
  | cons x xs =>
    have hrw : (r ++ b).dropWhile isPySpace = x :: (xs ++ b) := by
      rw [List.dropWhile_append, hdw]
      simp
    rw [commaOkAt, hrw]
    rw [commaOkAt, hdw] at h
    exact h

theorem noCommaBracket_append_headOk (a b : List Char)
    (ha : noCommaBracket a = true) (hb : noCommaBracket b = true)
    (hh : headOkSer b = true) : noCommaBracket (a ++ b) = true := by
  induction a with
  | nil => simpa using hb
  | cons c rest ih =>
    simp only [noCommaBracket, Bool.and_eq_true] at ha
    simp only [List.cons_append, noCommaBracket, Bool.and_eq_true]
    refine ⟨?_, ih ha.2⟩
    rcases Bool.or_eq_true_iff.mp ha.1 with h1 | h1
    · simp [h1]
    · simp [commaOkAt_append_head rest b h1 hh]

theorem getLast?_mem_of_eq (l : List Char) (c : Char)
    (h : l.getLast? = some c) : c ∈ l := by
  cases l with
  | nil => simp at h
  | cons a rest =>
    have hne : a :: rest ≠ [] := by simp
    rw [List.getLast?_eq_getLast _ hne] at h
    simp only [Option.some.injEq] at h
    rw [← h]
    exact List.getLast_mem hne

theorem dropWhile_ne_nil_of_lastOk (l : List Char) (h : lastOk l = true) :
    ¬l.dropWhile isPySpace = [] := by
  intro hd
  rw [List.dropWhile_eq_nil_iff] at hd
  unfold lastOk at h
  cases hl : l.getLast? with
  | none => rw [hl] at h; simp at h
  | some c =>
    rw [hl] at h
    simp only [Bool.and_eq_true, Bool.not_eq_true'] at h
    have hmem := hd c (getLast?_mem_of_eq l c hl)
    rw [h.1] at hmem
    exact absurd hmem (by simp)

theorem lastOk_of_all (l : List Char) (hne : ¬l = [])
    (h : ∀ c ∈ l, ¬isPySpace c = true ∧ ¬c = ',') : lastOk l = true := by
  unfold lastOk
  cases hl : l.getLast? with
  | none =>
    have hs := List.getLast?_isSome.mpr hne
    rw [hl] at hs
    simp at hs
  | some c =>
    have hm := h c (getLast?_mem_of_eq l c hl)
    simp [hm.1, hm.2]

theorem noCommaBracket_append_lastOk (a b : List Char)
    (ha : noCommaBracket a = true) (hl : lastOk a = true)
    (hb : noCommaBracket b = true) : noCommaBracket (a ++ b) = true := by
  induction a with
  | nil => simp [lastOk] at hl
  | cons c rest ih =>
    simp only [noCommaBracket, Bool.and_eq_true] at ha
    simp only [List.cons_append, noCommaBracket, Bool.and_eq_true]
    cases rest with
    | nil =>
      simp only [lastOk, List.getLast?_singleton, Bool.and_eq_true,
        Bool.not_eq_true'] at hl
      constructor
      · simp [hl.2]
      · simpa using hb
    | cons d rest2 =>
      have hl2 : lastOk (d :: rest2) = true := by
        unfold lastOk at hl ⊢
        rwa [List.getLast?_cons_cons] at hl
      refine ⟨?_, ih ha.2 hl2⟩
      rcases Bool.or_eq_true_iff.mp ha.1 with h1 | h1
      · simp [h1]
      · have h2 := commaOkAt_append_left (d :: rest2) b
          (dropWhile_ne_nil_of_lastOk _ hl2) h1
        rw [Bool.or_eq_true]
        right
        simpa using h2

theorem noCommaBracket_of_no_comma (l : List Char)
    (h : ∀ c ∈ l, ¬c = ',') : noCommaBracket l = true := by
  induction l with
  | nil => rfl
  | cons c rest ih =>
    simp only [noCommaBracket, Bool.and_eq_true]
    constructor
    · simp [h c (List.mem_cons_self c rest)]
    · exact ih (fun d hd => h d (List.mem_cons_of_mem c hd))

theorem headOkSer_append_left (a b : List Char) (h : headOkSer a = true) :
    headOkSer (a ++ b) = true := by
  cases a with
  | nil => simp [headOkSer] at h
  | cons c rest =>
    simp only [headOkSer, List.head?_cons] at h
    simp only [List.cons_append, headOkSer, List.head?_cons]
    exact h

theorem headOkSer_ser (j : Json) (hj : jsonOk j = true) :
    headOkSer (ser j) = true := by
  cases j with
  | null => simp only [ser]; decide
  | bool b => cases b <;> (simp only [ser]; decide)
  | num s =>
    simp only [jsonOk, numLexOk, Bool.and_eq_true, List.all_eq_true,
      Bool.not_eq_true'] at hj
    simp only [ser]
    cases hd : s.data with
    | nil => rw [hd] at hj; simp at hj
    | cons c rest =>
      have hc := numChar_props c
        (hj.2 c (by rw [hd]; exact List.mem_cons_self c rest))
      simp only [headOkSer, List.head?_cons, Bool.and_eq_true,
        Bool.not_eq_true']
      refine ⟨⟨?_, ?_⟩, ?_⟩
      · simpa using hc.2.2.1
      · simpa using hc.2.2.2.1
      · simpa using hc.2.2.2.2.1
  | str s =>
    simp only [ser]
    rfl
  | arr l =>
    simp only [ser]
    rfl
  | obj kvs =>
    simp only [ser]
    rfl

theorem lastOk_ser (j : Json) (hj : jsonOk j = true) :
    lastOk (ser j) = true := by
  cases j with
  | null => simp only [ser]; decide
  | bool b => cases b <;> (simp only [ser]; decide)
  | num s =>
    simp only [jsonOk, numLexOk, Bool.and_eq_true, List.all_eq_true,
      Bool.not_eq_true'] at hj
    simp only [ser]
    refine lastOk_of_all s.data ?_ ?_
    · intro hd; rw [hd] at hj; simp at hj
    · intro c hc
      have hp := numChar_props c (hj.2 c hc)
      exact ⟨hp.2.2.1, hp.2.2.2.2.2.1⟩
  | str s =>
    simp only [ser]
    rw [show ('"' :: escString s.data ++ ['"'])
        = ('"' :: escString s.data) ++ ['"'] from rfl]
    unfold lastOk
    rw [List.getLast?_concat]
    decide
  | arr l =>
    simp only [ser]
    rw [show ('[' :: serElems l ++ [']']) = ('[' :: serElems l) ++ [']'] from rfl]
    unfold lastOk
    rw [List.getLast?_concat]
    decide
  | obj kvs =>
    simp only [ser]
    rw [show ('{' :: serFields kvs ++ ['}'])
        = ('{' :: serFields kvs) ++ ['}'] from rfl]
    unfold lastOk
    rw [List.getLast?_concat]
    decide

theorem headOkSer_serElems (l : List Json) (hj : jsonOkList l = true)
    (hne : ¬l = []) : headOkSer (serElems l) = true := by
  cases l with
  | nil => exact absurd rfl hne
  | cons x xs =>
    have hx : jsonOk x = true := by
      simp only [jsonOkList, Bool.and_eq_true] at hj
      exact hj.1
    cases xs with
    | nil => simp only [serElems]; exact headOkSer_ser x hx
    | cons y ys =>
      simp only [serElems]
      exact headOkSer_append_left _ _ (headOkSer_ser x hx)

theorem headOkSer_serFields (kvs : List (String × Json)) (hne : ¬kvs = []) :
    headOkSer (serFields kvs) = true := by
  cases kvs with
  | nil => exact absurd rfl hne
  | cons kv rest =>
    cases rest with
    | nil => simp only [serFields]; rfl
    | cons r2 rest2 => simp only [serFields]; rfl

theorem serElems_cons_cons (x y : Json) (ys : List Json) :
    serElems (x :: y :: ys) = ser x ++ ',' :: serElems (y :: ys) := by
  simp only [serElems]

theorem serFields_cons_cons (kv r2 : String × Json)
    (rest2 : List (String × Json)) :
    serFields (kv :: r2 :: rest2)
      = ('"' :: escString kv.1.data ++ '"' :: ':' :: ser kv.2)
          ++ ',' :: serFields (r2 :: rest2) := by
  simp only [serFields]

theorem lastOk_serElems (l : List Json) (hj : jsonOkList l = true)
    (hne : ¬l = []) : lastOk (serElems l) = true := by
  induction l with
  | nil => exact absurd rfl hne
  | cons x xs ih =>
    simp only [jsonOkList, Bool.and_eq_true] at hj
    cases xs with
    | nil => simp only [serElems]; exact lastOk_ser x hj.1
    | cons y ys =>
      have hl := ih hj.2 (by simp)
      rw [serElems_cons_cons]
      unfold lastOk at hl ⊢
      rw [show (',' :: serElems (y :: ys)) = [','] ++ serElems (y :: ys)
          from rfl]
      rw [List.getLast?_append, List.getLast?_append]
      cases hg : (serElems (y :: ys)).getLast? with
      | none => rw [hg] at hl; simp at hl
      | some c =>
        rw [hg] at hl
        simpa using hl

theorem lastOk_serFields (kvs : List (String × Json))
    (hj : jsonOkFields kvs = true) (hne : ¬kvs = []) :
    lastOk (serFields kvs) = true := by
  induction kvs with
  | nil => exact absurd rfl hne
  | cons kv rest ih =>
    simp only [jsonOkFields, Bool.and_eq_true] at hj
    cases rest with
    | nil =>
      simp only [serFields]
      have hv := lastOk_ser kv.2 hj.1.2
      unfold lastOk at hv ⊢
      rw [show ('"' :: escString kv.1.data ++ '"' :: ':' :: ser kv.2)
          = ('"' :: escString kv.1.data ++ ['"', ':']) ++ ser kv.2 by
        simp]
      rw [List.getLast?_append]
      cases hg : (ser kv.2).getLast? with
      | none => rw [hg] at hv; simp at hv
      | some c =>
        rw [hg] at hv
        simpa using hv
    | cons r2 rest2 =>
      have hl := ih hj.2 (by simp)
      rw [serFields_cons_cons]
      unfold lastOk at hl ⊢
      rw [show (',' :: serFields (r2 :: rest2)) = [','] ++ serFields (r2 :: rest2)
          from rfl]
      rw [List.getLast?_append, List.getLast?_append]
      cases hg : (serFields (r2 :: rest2)).getLast? with
      | none => rw [hg] at hl; simp at hl
      | some c =>
        rw [hg] at hl
        simpa using hl

theorem noCommaBracket_ser (j : Json) (hj : jsonOk j = true) :
    noCommaBracket (ser j) = true := by
  refine jsonOk.induct
    (fun v => jsonOk v = true → noCommaBracket (ser v) = true)
    (fun kvs => jsonOkFields kvs = true → noCommaBracket (serFields kvs) = true)
    (fun l => jsonOkList l = true → noCommaBracket (serElems l) = true)
    ?_ ?_ ?_ ?_ ?_ ?_ ?_ ?_ ?_ ?_ j hj
  · intro _
    simp only [ser]
    decide
  · intro b _
    cases b <;> (simp only [ser]; decide)
  · intro s h
    simp only [jsonOk, numLexOk, Bool.and_eq_true, List.all_eq_true] at h
    simp only [ser]
    exact noCommaBracket_of_no_comma s.data
      (fun c hc => (numChar_props c (h.2 c hc)).2.2.2.2.2.1)
  · intro s h
    simp only [jsonOk] at h
    simp only [ser]
    simp only [noCommaBracket, Bool.and_eq_true]
    exact ⟨by simp, noCommaBracket_append_headOk _ _ h (by decide) (by decide)⟩
  · intro l ihl h
    simp only [jsonOk] at h
    simp only [ser]
    simp only [noCommaBracket, Bool.and_eq_true]
    refine ⟨by simp, ?_⟩
    cases l with
    | nil =>
      rw [show serElems [] = [] from by simp only [serElems]]
      decide
    | cons x xs =>
      exact noCommaBracket_append_lastOk _ _ (ihl h)
        (lastOk_serElems _ h (by simp)) (by decide)
  · intro kvs ihk h
    simp only [jsonOk] at h
    simp only [ser]
    simp only [noCommaBracket, Bool.and_eq_true]
    refine ⟨by simp, ?_⟩
    cases kvs with
    | nil =>
      rw [show serFields [] = [] from by simp only [serFields]]
      decide
    | cons kv rest =>
      exact noCommaBracket_append_lastOk _ _ (ihk h)
        (lastOk_serFields _ h (by simp)) (by decide)
  · intro _
    rw [show serElems [] = [] from by simp only [serElems]]
    rfl
  · intro x tail ihx ihtail h
    simp only [jsonOkList, Bool.and_eq_true] at h
    cases tail with
    | nil =>
      simp only [serElems]
      exact ihx h.1
    | cons y ys =>
      rw [serElems_cons_cons]
      refine noCommaBracket_append_headOk _ _ (ihx h.1) ?_ (by rfl)
      simp only [noCommaBracket, Bool.and_eq_true]
      refine ⟨?_, ihtail h.2⟩
      have hca := commaOkAt_of_headOk _ (headOkSer_serElems (y :: ys) h.2 (by simp))
      simp [hca]
  · intro _
    rw [show serFields [] = [] from by simp only [serFields]]
    rfl
  · intro kv tail ihv ihtail h
    simp only [jsonOkFields, Bool.and_eq_true] at h
    have hA : noCommaBracket
        ('"' :: escString kv.1.data ++ '"' :: ':' :: ser kv.2) = true := by
      simp only [noCommaBracket, Bool.and_eq_true]
      refine ⟨by simp, ?_⟩
      refine noCommaBracket_append_headOk _ _ h.1.1 ?_ (by rfl)
      simp only [noCommaBracket, Bool.and_eq_true]
      refine ⟨by simp, ?_, ihv h.1.2⟩
      have hca := commaOkAt_of_headOk (ser kv.2) (headOkSer_ser kv.2 h.1.2)
      simp [hca]
    cases tail with
    | nil =>
      simp only [serFields]
      exact hA
    | cons r2 rest2 =>
      rw [serFields_cons_cons]
      refine noCommaBracket_append_headOk _ _ hA ?_ (by rfl)
      simp only [noCommaBracket, Bool.and_eq_true]
      refine ⟨?_, ihtail h.2⟩
      have hca := commaOkAt_of_headOk _ (headOkSer_serFields (r2 :: rest2) (by simp))
      simp [hca]

theorem stripAux_plain_append (u t : List Char)
    (hu : ∀ c ∈ u, ¬c = '"' ∧ ¬c = '/') :
    stripAux (u ++ t) false false = u ++ stripAux t false false := by
  induction u with
  | nil => simp
  | cons c rest ih =>
    have hc := hu c (List.mem_cons_self c rest)
    simp only [List.cons_append]
    rw [stripAux_copy c _ hc.1 hc.2,
      ih (fun d hd => hu d (List.mem_cons_of_mem c hd))]

theorem stripAux_string_append (s t : List Char) (h : stringBodyOk s = true) :
    stripAux ('"' :: (s ++ ('"' :: t))) false false
      = '"' :: (s ++ ('"' :: stripAux t false false)) := by
  rw [stripAux_quote]
  simp only [Bool.not_false]
  rw [stripAux_inString s t h]

theorem strip_ser (j : Json) (hj : jsonOk j = true) (t : List Char) :
    stripAux (ser j ++ t) false false = ser j ++ stripAux t false false := by
  refine jsonOk.induct
    (fun v => jsonOk v = true → ∀ u,
      stripAux (ser v ++ u) false false = ser v ++ stripAux u false false)
    (fun kvs => jsonOkFields kvs = true → ∀ u,
      stripAux (serFields kvs ++ u) false false
        = serFields kvs ++ stripAux u false false)
    (fun l => jsonOkList l = true → ∀ u,
      stripAux (serElems l ++ u) false false
        = serElems l ++ stripAux u false false)
    ?_ ?_ ?_ ?_ ?_ ?_ ?_ ?_ ?_ ?_ j hj t
  · intro _ u
    simp only [ser]
    exact stripAux_plain_append _ u (by decide)
  · intro b _ u
    cases b <;> (simp only [ser]; exact stripAux_plain_append _ u (by decide))
  · intro s h u
    simp only [jsonOk, numLexOk, Bool.and_eq_true, List.all_eq_true] at h
    simp only [ser]
    refine stripAux_plain_append _ u ?_
    intro c hc
    have hp := numChar_props c (h.2 c hc)
    exact ⟨hp.1, hp.2.1⟩
  · intro s _ u
    simp only [ser, List.cons_append, List.append_assoc, List.singleton_append]
    exact stripAux_string_append _ u (stringBodyOk_escString s.data)
  · intro l ihl h u
    simp only [jsonOk] at h
    simp only [ser, List.cons_append, List.append_assoc, List.singleton_append,
      List.nil_append]
    rw [stripAux_copy _ _ (by decide) (by decide), ihl h (']' :: u),
      stripAux_copy _ _ (by decide) (by decide)]
  · intro kvs ihk h u
    simp only [jsonOk] at h
    simp only [ser, List.cons_append, List.append_assoc, List.singleton_append,
      List.nil_append]
    rw [stripAux_copy _ _ (by decide) (by decide), ihk h ('}' :: u),
      stripAux_copy _ _ (by decide) (by decide)]
  · intro _ u
    rw [show serElems [] = [] from by simp only [serElems]]
    simp
  · intro x tail ihx ihtail h u
    simp only [jsonOkList, Bool.and_eq_true] at h
    cases tail with
    | nil =>
      simp only [serElems]
      exact ihx h.1 u
    | cons y ys =>
      rw [serElems_cons_cons]
      simp only [List.append_assoc, List.cons_append]
      rw [ihx h.1 (',' :: (serElems (y :: ys) ++ u)),
        stripAux_copy _ _ (by decide) (by decide), ihtail h.2 u]
  · intro _ u
    rw [show serFields [] = [] from by simp only [serFields]]
    simp
  · intro kv tail ihv ihtail h u
    simp only [jsonOkFields, Bool.and_eq_true] at h
    cases tail with
    | nil =>
      simp only [serFields, List.cons_append, List.append_assoc]
      rw [stripAux_string_append _ _ (stringBodyOk_escString kv.1.data)]
      rw [stripAux_copy _ _ (by decide) (by decide), ihv h.1.2 u]
    | cons r2 rest2 =>
      rw [serFields_cons_cons]
      simp only [List.append_assoc, List.cons_append]
      rw [stripAux_string_append _ _ (stringBodyOk_escString kv.1.data)]
      rw [stripAux_copy _ _ (by decide) (by decide)]
      rw [ihv h.1.2 (',' :: (serFields (r2 :: rest2) ++ u))]
      rw [stripAux_copy _ _ (by decide) (by decide), ihtail h.2 u]

theorem removeAux_id (l : List Char) (h : noCommaBracket l = true) :
    removeAux l = l := by
  induction l with
  | nil => rfl
  | cons c rest ih =>
    simp only [noCommaBracket, Bool.and_eq_true] at h
    by_cases hc : c = ','
    · subst hc
      have hca : commaOkAt rest = true := by
        rcases Bool.or_eq_true_iff.mp h.1 with h1 | h1
        · simp at h1
        · exact h1
      cases hdw : rest.dropWhile isPySpace with
      | nil => rw [removeAux_comma_nil rest hdw, ih h.2]
      | cons b rest2 =>
        rw [commaOkAt, hdw] at hca
        rw [removeAux_comma_miss rest b rest2 hdw (by simp_all), ih h.2]
    · rw [removeAux_other c rest hc, ih h.2]

theorem strip_ser_id (j : Json) (hj : jsonOk j = true) :
    stripAux (ser j) false false = ser j := by
  have h := strip_ser j hj []
  simpa [stripAux_nil] using h

/-- Claim C1 (amended): on the image of a canonical strict-JSON serializer
the round trip holds, under the side condition `jsonOk`: number lexemes are
well formed and no serialized string body contains a comma followed by
whitespace only and then a closing brace or bracket. For such values the
normalization pipeline is the identity on the serialized text, so the
normalized text decodes exactly as the original. Without the string side
condition the claim fails: the trailing-comma pass is a raw regex
substitution that also rewrites the inside of string literals. -/
theorem claim_C1_normalize_roundtrip (j : Json) (h : jsonOk j = true) :
    normalize (serialize j) = serialize j ∧
    json_loads (normalize (serialize j)) = json_loads (serialize j) := by
  have e1 : strip_jsonc_comments (serialize j) = serialize j := by
    show (⟨stripAux (ser j) false false⟩ : String) = ⟨ser j⟩
    rw [strip_ser_id j h]
  have e2 : remove_trailing_commas (serialize j) = serialize j := by
    show (⟨removeAux (ser j)⟩ : String) = ⟨ser j⟩
    rw [removeAux_id (ser j) (noCommaBracket_ser j h)]
  have e3 : normalize (serialize j) = serialize j := by
    unfold normalize
    rw [e1, e2]
  exact ⟨e3, by rw [e3]⟩

theorem claim_C1_normalize_roundtrip_witness :
    jsonOk jC1w = true ∧ normalize (serialize jC1w) = serialize jC1w := by
  have h : jsonOk jC1w = true := by
    simp only [jC1w, jsonOk, jsonOkFields, jsonOkList]
    decide
  exact ⟨h, (claim_C1_normalize_roundtrip jC1w h).1⟩

/-- Counterexample to claim C1 as stated: `cexC1` is strict JSON (the
decoder accepts it, and comment stripping leaves it unchanged), yet its
normalization decodes to a different value — the trailing-comma regex
deletes the comma inside the string literal. -/
theorem claim_C1_counterexample :
    json_loads cexC1 = some (Json.obj [("a", Json.str ",\x7d")]) ∧
    strip_jsonc_comments cexC1 = cexC1 ∧
    json_loads (normalize cexC1) = some (Json.obj [("a", Json.str "\x7d")]) ∧
    ¬(Json.str ",\x7d" = Json.str "\x7d") :=
  ⟨rfl, rfl, rfl, by simp⟩

end Waybar

